import Mathlib

/-!
Shallow embedding of the interval-heap implementation in `src/lib.rs` of the
`interval-heap` crate: a double-ended priority queue stored in a flat growable
array, together with proofs about its structural invariants and the behaviour
of its operations.

Modelling conventions:
* the backing `Vec<T>` is a `List α`;
* the comparator (`C: Compare<T>`, contractually a total order) is a
  `LinearOrder α` instance, with `cmp.compares_lt a b ↔ a < b`,
  `cmp.compares_gt a b ↔ b < a` and `cmp.compares_le a b ↔ a ≤ b`;
* `v[i]` is `getE v i`; reads are total with a default value, and where a
  claim is specifically about out-of-bounds panics a checked (`Option`)
  variant of the code is used;
* `usize` arithmetic is `Nat` arithmetic (the quantities involved are all
  bounded by `2 * v.len() + 5`, so no wrap-around can occur in the source).
-/

set_option linter.unusedSectionVars false
set_option linter.unusedVariables false

namespace IntervalHeap

variable {α : Type*} [LinearOrder α] [Inhabited α]

/-- `v[i]` on the backing vector (in-bounds on every executed path). -/
def getE (v : List α) (i : Nat) : α := v.getD i default

/-- `v.swap(i, j)` on the backing vector. -/
def swap (v : List α) (i j : Nat) : List α := (v.set i (getE v j)).set j (getE v i)

/-- Source line 60: `fn is_root(x: usize) -> bool { x < 2 }`. -/
def is_root (x : Nat) : Bool := x < 2

/-- Source line 63: `fn left(x: usize) -> usize { x & !1 }` — clearing the least
significant bit of `x`, i.e. `2 * (x / 2)`. -/
def left (x : Nat) : Nat := 2 * (x / 2)

/-- Source lines 66-69: `fn parent_left(x) = left((x - 2) / 2)`. -/
def parent_left (x : Nat) : Nat := left ((x - 2) / 2)

theorem length_swap (v : List α) (i j : Nat) : (swap v i j).length = v.length := by
  simp [swap]

theorem getE_set_eq (v : List α) (i : Nat) (a : α) (h : i < v.length) :
    getE (v.set i a) i = a := by
  induction v generalizing i with
  | nil => simp at h
  | cons b t ih =>
    cases i with
    | zero => rfl
    | succ k => simpa [getE, List.getD] using ih k (by simpa using h)

theorem getE_set_ne (v : List α) (i j : Nat) (a : α) (h : i ≠ j) :
    getE (v.set i a) j = getE v j := by
  induction v generalizing i j with
  | nil => simp [getE]
  | cons b t ih =>
    cases i with
    | zero =>
      cases j with
      | zero => exact absurd rfl h
      | succ k => rfl
    | succ k =>
      cases j with
      | zero => rfl
      | succ m => simpa [getE, List.getD] using ih k m (by omega)

theorem getE_swap (v : List α) (i j x : Nat) (hi : i < v.length) (hj : j < v.length) :
    getE (swap v i j) x =
      if x = j then getE v i else if x = i then getE v j else getE v x := by
  unfold swap
  by_cases hxj : x = j
  · subst hxj
    rw [if_pos rfl]
    exact getE_set_eq _ _ _ (by simpa using hj)
  · rw [if_neg hxj, getE_set_ne _ _ _ _ (Ne.symm hxj)]
    by_cases hxi : x = i
    · subst hxi
      rw [if_pos rfl]
      exact getE_set_eq _ _ _ hi
    · rw [if_neg hxi, getE_set_ne _ _ _ _ (Ne.symm hxi)]

theorem set_cons_perm (v : List α) (k : Nat) (a : α) (h : k < v.length) :
    (getE v k :: v.set k a).Perm (a :: v) := by
  induction v generalizing k with
  | nil => simp at h
  | cons b t ih =>
    cases k with
    | zero => exact List.Perm.swap a b t
    | succ m =>
      have hm := ih m (by simpa using h)
      have step : (getE t m :: b :: t.set m a).Perm (a :: b :: t) :=
        ((List.Perm.swap b (getE t m) (t.set m a)).trans (hm.cons b)).trans
          (List.Perm.swap a b t)
      simpa [getE, List.getD] using step

theorem swap_perm (v : List α) (i j : Nat) (hi : i < v.length) (hj : j < v.length) :
    (swap v i j).Perm v := by
  have hw : getE (v.set i (getE v j)) j = getE v j := by
    by_cases hij : i = j
    · subst hij; exact getE_set_eq _ _ _ hi
    · exact getE_set_ne _ _ _ _ hij
  have h1 := set_cons_perm (v.set i (getE v j)) j (getE v i) (by simpa using hj)
  rw [hw] at h1
  have h2 := set_cons_perm v i (getE v j) hi
  exact (h1.trans h2).cons_inv

theorem parent_left_lt (x : Nat) (h : 2 ≤ x) : parent_left x < x := by
  unfold parent_left left
  omega

/-- The "right" item of node `j` when it exists, otherwise its "left" item —
this is `node.last().unwrap()` in the source's validity check. -/
def nodeHigh (v : List α) (j : Nat) : α :=
  if 2 * j + 1 < v.length then getE v (2 * j + 1) else getE v (2 * j)

/-- Source lines 73-97 (`interval_heap_push`), the `while` loop: sift the last
(possibly one-item) node up towards the root. -/
def siftUp (v : List α) (node_min node_max : Nat) : List α :=
  if h1 : is_root node_min then v
  else if getE v node_min < getE v (parent_left node_min) then
    siftUp (swap v (parent_left node_min) node_min)
      (parent_left node_min) (parent_left node_min + 1)
  else if getE v (parent_left node_min + 1) < getE v node_max then
    siftUp (swap v (parent_left node_min + 1) node_max)
      (parent_left node_min) (parent_left node_min + 1)
  else v
termination_by node_min
decreasing_by
  all_goals
    simp only [is_root, decide_eq_true_eq] at h1
    exact parent_left_lt _ (by omega)

/-- Source lines 73-97: the first `v.len() - 1` items are a valid interval heap
and the last item is to be inserted.  `node_max = v.len() - 1`,
`node_min = left(node_max)`; swap them if out of order, then sift up. -/
def interval_heap_push (v : List α) : List α :=
  if getE v (v.length - 1) < getE v (left (v.length - 1)) then
    siftUp (swap v (left (v.length - 1)) (v.length - 1)) (left (v.length - 1)) (v.length - 1)
  else
    siftUp v (left (v.length - 1)) (v.length - 1)

/-- Source lines 107-112: the child of `l` with the lowest min:
`c1 = l*2+2`, `c2 = l*2+4`, `ch = if v.len() <= c2 || v[c1] < v[c2] { c1 } else { c2 }`. -/
def min_child (v : List α) (l : Nat) : Nat :=
  if v.length ≤ l * 2 + 4 ∨ getE v (l * 2 + 2) < getE v (l * 2 + 4) then l * 2 + 2
  else l * 2 + 4

/-- Source lines 116-119: after descending into `ch`, fix the pair
`(ch, ch+1)` if the right item exists and is smaller. -/
def fix_pair_min (v : List α) (ch : Nat) : List α :=
  if ch + 1 < v.length then
    (if getE v (ch + 1) < getE v ch then swap v ch (ch + 1) else v)
  else v

theorem length_fix_pair_min (v : List α) (ch : Nat) :
    (fix_pair_min v ch).length = v.length := by
  unfold fix_pair_min
  split <;> [skip; rfl]
  split <;> simp [length_swap]

theorem min_child_bounds (v : List α) (l : Nat) (h : ¬ v.length ≤ l * 2 + 2) :
    l < min_child v l ∧ min_child v l < v.length := by
  unfold min_child
  split
  · omega
  · next h2 =>
    have : ¬ v.length ≤ l * 2 + 4 := fun hc => h2 (Or.inl hc)
    omega

/-- Source lines 102-124 (`update_min`), the `loop`: `left` starts at `0`; the
min item of the root has been replaced and is sifted down. -/
def update_min_loop (v : List α) (l : Nat) : List α :=
  if h1 : v.length ≤ l * 2 + 2 then v
  else if getE v (min_child v l) < getE v l then
    update_min_loop (fix_pair_min (swap v (min_child v l) l) (min_child v l)) (min_child v l)
  else v
termination_by v.length - l
decreasing_by
  have hb := min_child_bounds v l h1
  simp only [length_fix_pair_min, length_swap]
  omega

/-- Source lines 102-124: `update_min`. -/
def update_min (v : List α) : List α := update_min_loop v 0

/-- Source lines 134-139: the child of `r` with the greatest max:
`c1 = r*2+1`, `c2 = r*2+3`, `ch = if v.len() <= c2 || v[c1] > v[c2] { c1 } else { c2 }`. -/
def max_child (v : List α) (r : Nat) : Nat :=
  if v.length ≤ r * 2 + 3 ∨ getE v (r * 2 + 3) < getE v (r * 2 + 1) then r * 2 + 1
  else r * 2 + 3

/-- Source lines 143-144: after descending into `ch`, fix the pair
`(ch-1, ch)` — the left neighbour always exists. -/
def fix_pair_max (v : List α) (ch : Nat) : List α :=
  if getE v ch < getE v (ch - 1) then swap v (ch - 1) ch else v

theorem length_fix_pair_max (v : List α) (ch : Nat) :
    (fix_pair_max v ch).length = v.length := by
  unfold fix_pair_max
  split <;> simp [length_swap]

theorem max_child_bounds (v : List α) (r : Nat) (h : ¬ v.length ≤ r * 2 + 1) :
    r < max_child v r ∧ max_child v r < v.length := by
  unfold max_child
  split
  · omega
  · next h2 =>
    have : ¬ v.length ≤ r * 2 + 3 := fun hc => h2 (Or.inl hc)
    omega

/-- Source lines 129-149 (`update_max`), the `loop`: `right` starts at `1`; the
max item of the root has been replaced and is sifted down. -/
def update_max_loop (v : List α) (r : Nat) : List α :=
  if h1 : v.length ≤ r * 2 + 1 then v
  else if getE v r < getE v (max_child v r) then
    update_max_loop (fix_pair_max (swap v (max_child v r) r) (max_child v r)) (max_child v r)
  else v
termination_by v.length - r
decreasing_by
  have hb := max_child_bounds v r h1
  simp only [length_fix_pair_max, length_swap]
  omega

/-- Source lines 129-149: `update_max`. -/
def update_max (v : List α) : List α := update_max_loop v 1

/-- `Vec::swap_remove(i)`: replace `v[i]` with the last item and pop; the
removed value itself is `getE v i`. -/
def swap_remove (v : List α) (i : Nat) : List α :=
  (v.set i (getE v (v.length - 1))).dropLast

/-- Source lines 234-241 (`from_vec_and_comparator`), the `for` loop:
`for to in 2 .. vec.len() + 1 { interval_heap_push(&mut vec[..to]) }`. -/
def from_vec_go (n : Nat) (v : List α) (k : Nat) : List α :=
  if h : k ≤ n then
    from_vec_go n (interval_heap_push (v.take k) ++ v.drop k) (k + 1)
  else v
termination_by n + 1 - k
decreasing_by omega

/-- Source lines 234-241: `from_vec_and_comparator`. -/
def from_vec_and_comparator (v : List α) : List α := from_vec_go v.length v 2

/-- Source lines 252-258: `min`. -/
def min (v : List α) : Option α :=
  if v.length = 0 then none else some (getE v 0)

/-- Source lines 277-284: `max`. -/
def max (v : List α) : Option α :=
  if v.length = 0 then none
  else if v.length = 1 then some (getE v 0)
  else some (getE v 1)

/-- Source lines 303-310: `min_max`. -/
def min_max (v : List α) : Option (α × α) :=
  if v.length = 0 then none
  else if v.length = 1 then some (getE v 0, getE v 0)
  else some (getE v 0, getE v 1)

/-- Source lines 344-357: `pop_min`, returning the removed item and the new
backing vector. -/
def pop_min (v : List α) : Option α × List α :=
  if v.length = 0 then (none, v)
  else if v.length ≤ 2 then (some (getE v 0), swap_remove v 0)
  else (some (getE v 0), update_min (swap_remove v 0))

/-- Source lines 362-374: `pop_max`; for `len <= 2` it is `Vec::pop`. -/
def pop_max (v : List α) : Option α × List α :=
  if v.length ≤ 2 then (v.getLast?, v.dropLast)
  else (some (getE v 1), update_max (swap_remove v 1))

/-- Source lines 377-382: `push`. -/
def push (v : List α) (item : α) : List α :=
  interval_heap_push (v ++ [item])

/-- Source lines 388-395 (`into_sorted_vec`), the `for` loop:
`for hsize in (2..vec.len()).rev() { vec.swap(1, hsize); update_max(&mut vec[..hsize]) }`. -/
def sort_loop (v : List α) (hsize : Nat) : List α :=
  if hsize < 2 then v
  else
    sort_loop (update_max ((swap v 1 hsize).take hsize) ++ (swap v 1 hsize).drop hsize)
      (hsize - 1)
termination_by hsize
decreasing_by omega

/-- Source lines 388-395: `into_sorted_vec`. -/
def into_sorted_vec (v : List α) : List α := sort_loop v (v.length - 1)

/-- Source lines 427-448: `is_valid`.  The first chunk (the root) must satisfy
2a; every later node `j ≥ 1` (enumeration index `i = j - 1`, parent low index
`p = i & !1 = left (j-1)`) must satisfy 2a, 2b and 2c; with fewer than two
items the heap is vacuously valid. -/
def is_valid (v : List α) : Bool :=
  if 2 ≤ v.length then
    decide (getE v 0 ≤ getE v 1) &&
    (List.range ((v.length + 1) / 2)).all (fun j =>
      decide (j = 0) ||
      (decide (getE v (2 * j) ≤ nodeHigh v j) &&
       decide (getE v (left (j - 1)) ≤ getE v (2 * j)) &&
       decide (nodeHigh v j ≤ getE v (left (j - 1) + 1))))
  else true

/-! ### The structural invariants, in propositional form -/

/-- Invariant 2a: each complete node's low item is `≤` its high item. -/
def PairsOk (v : List α) : Prop :=
  ∀ j, 2 * j + 1 < v.length → getE v (2 * j) ≤ getE v (2 * j + 1)

/-- Invariants 1, 2a, 2b, 2c together (the propositional counterpart of
`is_valid`): every complete node is ordered, and every non-root node's
interval nests inside its parent's interval (`left (j-1)` is the low index of
node `j`'s parent). -/
def Valid (v : List α) : Prop :=
  PairsOk v ∧
  ∀ j, 1 ≤ j → 2 * j < v.length →
    getE v (left (j - 1)) ≤ getE v (2 * j) ∧ nodeHigh v j ≤ getE v (left (j - 1) + 1)

theorem valid_of_short (v : List α) (h : v.length < 2) : Valid v := by
  constructor
  · intro j hj; omega
  · intro j hj1 hj2; omega

theorem is_valid_iff (v : List α) : is_valid v = true ↔ Valid v := by
  unfold is_valid
  split
  · next h2 =>
    rw [Bool.and_eq_true, List.all_eq_true]
    simp only [List.mem_range, Bool.or_eq_true, Bool.and_eq_true, decide_eq_true_eq]
    constructor
    · rintro ⟨hroot, hall⟩
      constructor
      · intro j hj
        rcases Nat.eq_zero_or_pos j with rfl | hj1
        · simpa using hroot
        · have hmem : j < (v.length + 1) / 2 := by omega
          rcases hall j hmem with h0 | ⟨⟨hpair, _⟩, _⟩
          · omega
          · have : nodeHigh v j = getE v (2 * j + 1) := by unfold nodeHigh; rw [if_pos hj]
            rwa [this] at hpair
      · intro j hj1 hj2
        have hmem : j < (v.length + 1) / 2 := by omega
        rcases hall j hmem with h0 | ⟨⟨_, hlow⟩, hhigh⟩
        · omega
        · exact ⟨hlow, hhigh⟩
    · rintro ⟨hpairs, hrest⟩
      refine ⟨hpairs 0 (by omega), ?_⟩
      intro j hmem
      rcases Nat.eq_zero_or_pos j with rfl | hj1
      · exact Or.inl rfl
      · refine Or.inr ⟨⟨?_, (hrest j hj1 (by omega)).1⟩, (hrest j hj1 (by omega)).2⟩
        unfold nodeHigh
        split
        · next hc => exact hpairs j hc
        · exact le_refl _
  · next h2 =>
    simp only [true_iff]
    exact valid_of_short v (by omega)

/-- The low item of a node is `≤` its high item (trivially, for the unpaired
last node). -/
theorem low_le_nodeHigh (v : List α) (hp : PairsOk v) (j : Nat) (hj : 2 * j < v.length) :
    getE v (2 * j) ≤ nodeHigh v j := by
  unfold nodeHigh
  split
  · next hc => exact hp j hc
  · exact le_refl _

/-- Consequence of validity: the root's low item is a lower bound for every
low slot. -/
theorem valid_low_bound (v : List α) (hv : Valid v) :
    ∀ j, 2 * j < v.length → getE v 0 ≤ getE v (2 * j) := by
  intro j
  induction j using Nat.strong_induction_on with
  | _ j ih =>
    intro hj
    rcases Nat.eq_zero_or_pos j with rfl | hj1
    · simp
    · have hlow := (hv.2 j hj1 hj).1
      have hpar := ih ((j - 1) / 2) (by omega) (by omega)
      have : left (j - 1) = 2 * ((j - 1) / 2) := rfl
      rw [this] at hlow
      exact hpar.trans hlow

/-- Consequence of validity: the root's low item is the minimum. -/
theorem valid_min (v : List α) (hv : Valid v) :
    ∀ i, i < v.length → getE v 0 ≤ getE v i := by
  intro i hi
  rcases Nat.even_or_odd i with ⟨m, hm⟩ | ⟨m, hm⟩
  · have := valid_low_bound v hv m (by omega)
    rwa [show 2 * m = i by omega] at this
  · have h1 := valid_low_bound v hv m (by omega)
    have h2 := hv.1 m (by omega)
    rw [show 2 * m + 1 = i by omega] at h2
    exact h1.trans h2

/-- Consequence of validity: the root's high item bounds every node's high. -/
theorem valid_high_bound (v : List α) (hv : Valid v) (h2 : 1 < v.length) :
    ∀ j, 2 * j < v.length → nodeHigh v j ≤ getE v 1 := by
  intro j
  induction j using Nat.strong_induction_on with
  | _ j ih =>
    intro hj
    rcases Nat.eq_zero_or_pos j with rfl | hj1
    · unfold nodeHigh
      rw [if_pos (by omega)]
    · have hhigh := (hv.2 j hj1 hj).2
      have hplt : 2 * ((j - 1) / 2) + 1 < v.length := by omega
      have hpar := ih ((j - 1) / 2) (by omega) (by omega)
      have hh : nodeHigh v ((j - 1) / 2) = getE v (2 * ((j - 1) / 2) + 1) := by
        unfold nodeHigh
        rw [if_pos hplt]
      rw [hh] at hpar
      have : left (j - 1) + 1 = 2 * ((j - 1) / 2) + 1 := rfl
      rw [this] at hhigh
      exact hhigh.trans hpar

/-- Consequence of validity: the root's high item is the maximum (for heaps
with at least two items). -/
theorem valid_max (v : List α) (hv : Valid v) (h2 : 1 < v.length) :
    ∀ i, i < v.length → getE v i ≤ getE v 1 := by
  intro i hi
  rcases Nat.even_or_odd i with ⟨m, hm⟩ | ⟨m, hm⟩
  · have h1 := low_le_nodeHigh v hv.1 m (by omega)
    have hb := valid_high_bound v hv h2 m (by omega)
    rw [show 2 * m = i by omega] at h1
    exact h1.trans hb
  · have hb := valid_high_bound v hv h2 m (by omega)
    have hh : nodeHigh v m = getE v (2 * m + 1) := by
      unfold nodeHigh
      rw [if_pos (by omega)]
    rw [hh, show 2 * m + 1 = i by omega] at hb
    exact hb

/-! ### Index arithmetic -/

theorem parent_left_even (x : Nat) : parent_left x % 2 = 0 := by
  unfold parent_left left
  omega

theorem left_node (nmin : Nat) (h1 : 2 ≤ nmin) (h2 : nmin % 2 = 0) :
    left (nmin / 2 - 1) = parent_left nmin := by
  unfold parent_left left
  omega

/-! ### The sift-up loop invariant

For the state `(v, node_min, node_max)` of the `while` loop in
`interval_heap_push`: all invariants hold except possibly containment of the
current node in its parent, the current node's children nest directly in the
current node's parent's interval, and the current node's items are crosswise
bounded by its parent's interval with at most one side of containment broken. -/

structure SiftInv (v : List α) (nmin nmax : Nat) : Prop where
  heven : nmin % 2 = 0
  hmax : nmax < v.length
  hshape : nmax = nmin ∧ v.length = nmin + 1 ∨ nmax = nmin + 1
  pairs : ∀ j, 2 * j + 1 < v.length → 2 * j ≠ nmin → getE v (2 * j) ≤ getE v (2 * j + 1)
  pairCur : getE v nmin ≤ getE v nmax
  lows : ∀ j, 1 ≤ j → 2 * j < v.length → 2 * j ≠ nmin →
    getE v (left (j - 1)) ≤ getE v (2 * j)
  highs : ∀ j, 1 ≤ j → 2 * j < v.length → 2 * j ≠ nmin →
    nodeHigh v j ≤ getE v (left (j - 1) + 1)
  dlow : 2 ≤ nmin → ∀ j, 1 ≤ j → 2 * j < v.length → left (j - 1) = nmin →
    getE v (parent_left nmin) ≤ getE v (2 * j)
  dhigh : 2 ≤ nmin → ∀ j, 1 ≤ j → 2 * j < v.length → left (j - 1) = nmin →
    nodeHigh v j ≤ getE v (parent_left nmin + 1)
  cross1 : 2 ≤ nmin → nmax = nmin + 1 → getE v (parent_left nmin) ≤ getE v nmax
  cross2 : 2 ≤ nmin → nmax = nmin + 1 → getE v nmin ≤ getE v (parent_left nmin + 1)
  ybound : 2 ≤ nmin → nmax = nmin + 1 →
    getE v nmax ≤ getE v (parent_left nmin + 1) ∨ getE v (parent_left nmin) ≤ getE v nmin

theorem siftInv_branch1 (v : List α) (nmin nmax : Nat) (inv : SiftInv v nmin nmax)
    (h2 : 2 ≤ nmin) (hlt : getE v nmin < getE v (parent_left nmin)) :
    SiftInv (swap v (parent_left nmin) nmin) (parent_left nmin) (parent_left nmin + 1) := by
  obtain ⟨heven, hmax, hshape, pairs, pairCur, lows, highs, dlow, dhigh, cross1, cross2,
    ybound⟩ := inv
  have hpd : parent_left nmin = 2 * ((nmin - 2) / 2 / 2) := rfl
  have hple : parent_left nmin + 2 ≤ nmin := by omega
  have hplev : parent_left nmin % 2 = 0 := parent_left_even nmin
  have hnlt : nmin < v.length := by rcases hshape with ⟨e1, e2⟩ | e1 <;> omega
  have hplt : parent_left nmin < v.length := by omega
  have hpl1 : parent_left nmin + 1 < v.length := by omega
  have hsw : ∀ x, getE (swap v (parent_left nmin) nmin) x =
      if x = nmin then getE v (parent_left nmin)
      else if x = parent_left nmin then getE v nmin
      else getE v x := fun x => getE_swap v (parent_left nmin) nmin x hplt hnlt
  have hlen : (swap v (parent_left nmin) nmin).length = v.length := length_swap v _ _
  have h2p : 2 * (parent_left nmin / 2) = parent_left nmin := by omega
  have hpairP : getE v (parent_left nmin) ≤ getE v (parent_left nmin + 1) := by
    have hh := pairs (parent_left nmin / 2) (by omega) (by omega)
    rwa [h2p] at hh
  refine SiftInv.mk ?_ ?_ ?_ ?_ ?_ ?_ ?_ ?_ ?_ ?_ ?_ ?_
  -- heven
  · exact hplev
  -- hmax
  · rw [hlen]; omega
  -- hshape
  · exact Or.inr rfl
  -- pairs
  · intro j hjlt hjne
    rw [hlen] at hjlt
    rw [hsw (2 * j), hsw (2 * j + 1)]
    by_cases hc : 2 * j = nmin
    · rcases hshape with ⟨e1, e2⟩ | hC
      · omega
      · rw [if_pos hc, if_neg (by omega), if_neg (by omega)]
        have hy := ybound h2 hC
        rcases hy with hy | hy
        · rw [hC] at hy
          have hc1 := cross1 h2 hC
          rw [hC] at hc1
          rw [show 2 * j + 1 = nmin + 1 by omega]
          exact hc1
        · exact absurd hlt (not_lt.mpr hy)
    · rw [if_neg hc, if_neg hjne, if_neg (by omega), if_neg (by omega)]
      exact pairs j hjlt hc
  -- pairCur
  · rw [hsw (parent_left nmin), hsw (parent_left nmin + 1),
      if_neg (by omega), if_pos rfl, if_neg (by omega), if_neg (by omega)]
    rcases hshape with ⟨e1, e2⟩ | hC
    · exact le_of_lt (lt_of_lt_of_le hlt hpairP)
    · exact cross2 h2 hC
  -- lows
  · intro j hj1 hjlt hjne
    rw [hlen] at hjlt
    have hLj : left (j - 1) = 2 * ((j - 1) / 2) := rfl
    rw [hsw (left (j - 1)), hsw (2 * j)]
    by_cases hc : 2 * j = nmin
    · have hj' : j = nmin / 2 := by omega
      have hLpl : left (j - 1) = parent_left nmin := by
        rw [hj']; exact left_node nmin h2 heven
      rw [hLpl, if_neg (by omega), if_pos rfl, if_pos hc]
      exact le_of_lt hlt
    · by_cases hc2 : left (j - 1) = nmin
      · rw [hc2, if_pos rfl, if_neg hc, if_neg (by omega)]
        exact dlow h2 j hj1 hjlt hc2
      · by_cases hc3 : left (j - 1) = parent_left nmin
        · rw [hc3, if_neg (by omega), if_pos rfl, if_neg hc, if_neg (by omega)]
          have hl := lows j hj1 hjlt hc
          rw [hc3] at hl
          exact le_of_lt (lt_of_lt_of_le hlt hl)
        · rw [if_neg hc2, if_neg hc3, if_neg hc, if_neg (by omega)]
          exact lows j hj1 hjlt hc
  -- highs
  · intro j hj1 hjlt hjne
    rw [hlen] at hjlt
    have hLj : left (j - 1) = 2 * ((j - 1) / 2) := rfl
    have hnh : nodeHigh (swap v (parent_left nmin) nmin) j =
        if 2 * j + 1 < v.length then getE (swap v (parent_left nmin) nmin) (2 * j + 1)
        else getE (swap v (parent_left nmin) nmin) (2 * j) := by
      unfold nodeHigh
      rw [hlen]
    rw [hnh, hsw (left (j - 1) + 1)]
    by_cases hc : 2 * j = nmin
    · -- the old current node
      rcases hshape with ⟨e1, e2⟩ | hC
      · -- incomplete: node j has only its low slot
        rw [if_neg (by omega), hsw (2 * j), if_pos hc]
        have hj' : j = nmin / 2 := by omega
        have hLpl : left (j - 1) = parent_left nmin := by
          rw [hj']; exact left_node nmin h2 heven
        rw [hLpl, if_neg (by omega), if_neg (by omega)]
        exact hpairP
      · -- complete: high slot nmin + 1 = nmax is unchanged
        rw [if_pos (by omega), hsw (2 * j + 1), if_neg (by omega), if_neg (by omega)]
        have hj' : j = nmin / 2 := by omega
        have hLpl : left (j - 1) = parent_left nmin := by
          rw [hj']; exact left_node nmin h2 heven
        rw [hLpl, if_neg (by omega), if_neg (by omega)]
        have hy := ybound h2 hC
        rcases hy with hy | hy
        · rw [hC] at hy
          rw [show 2 * j + 1 = nmin + 1 by omega]
          exact hy
        · exact absurd hlt (not_lt.mpr hy)
    · have hunch : (if 2 * j + 1 < v.length then getE (swap v (parent_left nmin) nmin)
          (2 * j + 1) else getE (swap v (parent_left nmin) nmin) (2 * j)) = nodeHigh v j := by
        unfold nodeHigh
        split
        · rw [hsw (2 * j + 1), if_neg (by omega), if_neg (by omega)]
        · rw [hsw (2 * j), if_neg hc, if_neg (by omega)]
      rw [hunch]
      by_cases hc2 : left (j - 1) = nmin
      · rw [hc2, if_neg (by omega), if_neg (by omega)]
        -- children of the old current node keep their bound from `highs`
        have hh := highs j hj1 hjlt hc
        rw [hc2] at hh
        exact hh
      · by_cases hc3 : left (j - 1) = parent_left nmin
        · rw [hc3, if_neg (by omega), if_neg (by omega)]
          have hh := highs j hj1 hjlt hc
          rw [hc3] at hh
          exact hh
        · rw [if_neg (by omega), if_neg (by omega)]
          exact highs j hj1 hjlt hc
  -- dlow
  · intro hq j hj1 hjlt hjc
    rw [hlen] at hjlt
    have hLj : left (j - 1) = 2 * ((j - 1) / 2) := rfl
    have hgpd : parent_left (parent_left nmin) = 2 * ((parent_left nmin - 2) / 2 / 2) := rfl
    have hlowP : getE v (parent_left (parent_left nmin)) ≤ getE v (parent_left nmin) := by
      have hl := lows (parent_left nmin / 2) (by omega) (by omega) (by omega)
      rwa [left_node _ hq hplev, h2p] at hl
    rw [hsw (parent_left (parent_left nmin)), if_neg (by omega), if_neg (by omega),
      hsw (2 * j)]
    by_cases hc : 2 * j = nmin
    · rw [if_pos hc]
      exact hlowP
    · rw [if_neg hc, if_neg (by omega)]
      have hl := lows j hj1 hjlt hc
      rw [hjc] at hl
      exact hlowP.trans hl
  -- dhigh
  · intro hq j hj1 hjlt hjc
    rw [hlen] at hjlt
    have hLj : left (j - 1) = 2 * ((j - 1) / 2) := rfl
    have hgpd : parent_left (parent_left nmin) = 2 * ((parent_left nmin - 2) / 2 / 2) := rfl
    have hnhP : nodeHigh v (parent_left nmin / 2) = getE v (parent_left nmin + 1) := by
      unfold nodeHigh
      rw [h2p, if_pos hpl1]
    have hhighQ : getE v (parent_left nmin + 1) ≤ getE v (parent_left (parent_left nmin) + 1) := by
      have hh := highs (parent_left nmin / 2) (by omega) (by omega) (by omega)
      rwa [left_node _ hq hplev, hnhP] at hh
    have hnh : nodeHigh (swap v (parent_left nmin) nmin) j =
        if 2 * j + 1 < v.length then getE (swap v (parent_left nmin) nmin) (2 * j + 1)
        else getE (swap v (parent_left nmin) nmin) (2 * j) := by
      unfold nodeHigh
      rw [hlen]
    rw [hnh, hsw (parent_left (parent_left nmin) + 1),
      if_neg (show ¬ parent_left (parent_left nmin) + 1 = nmin by omega),
      if_neg (show ¬ parent_left (parent_left nmin) + 1 = parent_left nmin by omega)]
    by_cases hc : 2 * j = nmin
    · rcases hshape with ⟨e1, e2⟩ | hC
      · rw [if_neg (by omega), hsw (2 * j), if_pos hc]
        exact hpairP.trans hhighQ
      · rw [if_pos (by omega), hsw (2 * j + 1), if_neg (by omega), if_neg (by omega)]
        have hy := ybound h2 hC
        rcases hy with hy | hy
        · rw [hC] at hy
          rw [show 2 * j + 1 = nmin + 1 by omega]
          exact hy.trans hhighQ
        · exact absurd hlt (not_lt.mpr hy)
    · have hunch : (if 2 * j + 1 < v.length then getE (swap v (parent_left nmin) nmin)
          (2 * j + 1) else getE (swap v (parent_left nmin) nmin) (2 * j)) = nodeHigh v j := by
        unfold nodeHigh
        split
        · rw [hsw (2 * j + 1), if_neg (by omega), if_neg (by omega)]
        · rw [hsw (2 * j), if_neg hc, if_neg (by omega)]
      rw [hunch]
      have hh := highs j hj1 hjlt hc
      rw [hjc] at hh
      exact hh.trans hhighQ
  -- cross1
  · intro hq _
    have hgpd : parent_left (parent_left nmin) = 2 * ((parent_left nmin - 2) / 2 / 2) := rfl
    have hlowP : getE v (parent_left (parent_left nmin)) ≤ getE v (parent_left nmin) := by
      have hl := lows (parent_left nmin / 2) (by omega) (by omega) (by omega)
      rwa [left_node _ hq hplev, h2p] at hl
    rw [hsw (parent_left (parent_left nmin)), if_neg (by omega), if_neg (by omega),
      hsw (parent_left nmin + 1), if_neg (by omega), if_neg (by omega)]
    exact hlowP.trans hpairP
  -- cross2
  · intro hq _
    have hgpd : parent_left (parent_left nmin) = 2 * ((parent_left nmin - 2) / 2 / 2) := rfl
    have hnhP : nodeHigh v (parent_left nmin / 2) = getE v (parent_left nmin + 1) := by
      unfold nodeHigh
      rw [h2p, if_pos hpl1]
    have hhighQ : getE v (parent_left nmin + 1) ≤ getE v (parent_left (parent_left nmin) + 1) := by
      have hh := highs (parent_left nmin / 2) (by omega) (by omega) (by omega)
      rwa [left_node _ hq hplev, hnhP] at hh
    rw [hsw (parent_left nmin), if_neg (by omega), if_pos rfl,
      hsw (parent_left (parent_left nmin) + 1), if_neg (by omega), if_neg (by omega)]
    rcases hshape with ⟨e1, e2⟩ | hC
    · exact (le_of_lt (lt_of_lt_of_le hlt hpairP)).trans hhighQ
    · exact (cross2 h2 hC).trans hhighQ
  -- ybound
  · intro hq _
    have hgpd : parent_left (parent_left nmin) = 2 * ((parent_left nmin - 2) / 2 / 2) := rfl
    have hnhP : nodeHigh v (parent_left nmin / 2) = getE v (parent_left nmin + 1) := by
      unfold nodeHigh
      rw [h2p, if_pos hpl1]
    have hhighQ : getE v (parent_left nmin + 1) ≤ getE v (parent_left (parent_left nmin) + 1) := by
      have hh := highs (parent_left nmin / 2) (by omega) (by omega) (by omega)
      rwa [left_node _ hq hplev, hnhP] at hh
    refine Or.inl ?_
    rw [hsw (parent_left nmin + 1), if_neg (by omega), if_neg (by omega),
      hsw (parent_left (parent_left nmin) + 1), if_neg (by omega), if_neg (by omega)]
    exact hhighQ

theorem siftInv_branch2 (v : List α) (nmin nmax : Nat) (inv : SiftInv v nmin nmax)
    (h2 : 2 ≤ nmin) (hge : ¬ getE v nmin < getE v (parent_left nmin))
    (hlt : getE v (parent_left nmin + 1) < getE v nmax) :
    SiftInv (swap v (parent_left nmin + 1) nmax) (parent_left nmin) (parent_left nmin + 1) := by
  obtain ⟨heven, hmax, hshape, pairs, pairCur, lows, highs, dlow, dhigh, cross1, cross2,
    ybound⟩ := inv
  have hP : getE v (parent_left nmin) ≤ getE v nmin := not_lt.mp hge
  have hpd : parent_left nmin = 2 * ((nmin - 2) / 2 / 2) := rfl
  have hple : parent_left nmin + 2 ≤ nmin := by omega
  have hplev : parent_left nmin % 2 = 0 := parent_left_even nmin
  have hnlt : nmin < v.length := by rcases hshape with ⟨e1, e2⟩ | e1 <;> omega
  have hplt : parent_left nmin < v.length := by omega
  have hpl1 : parent_left nmin + 1 < v.length := by omega
  have h2p : 2 * (parent_left nmin / 2) = parent_left nmin := by omega
  have hpairP : getE v (parent_left nmin) ≤ getE v (parent_left nmin + 1) := by
    have hh := pairs (parent_left nmin / 2) (by omega) (by omega)
    rwa [h2p] at hh
  have hsw : ∀ x, getE (swap v (parent_left nmin + 1) nmax) x =
      if x = nmax then getE v (parent_left nmin + 1)
      else if x = parent_left nmin + 1 then getE v nmax
      else getE v x := fun x => getE_swap v (parent_left nmin + 1) nmax x hpl1 hmax
  have hlen : (swap v (parent_left nmin + 1) nmax).length = v.length := length_swap v _ _
  rcases hshape with ⟨e1, e2⟩ | hC
  · -- incomplete current node: nmax = nmin, v.length = nmin + 1
    refine SiftInv.mk ?_ ?_ ?_ ?_ ?_ ?_ ?_ ?_ ?_ ?_ ?_ ?_
    · exact hplev
    · rw [hlen]; omega
    · exact Or.inr rfl
    · -- pairs
      intro j hjlt hjne
      rw [hlen] at hjlt
      rw [hsw (2 * j), hsw (2 * j + 1),
        if_neg (show ¬ 2 * j = nmax by omega), if_neg (show ¬ 2 * j = parent_left nmin + 1 by omega),
        if_neg (show ¬ 2 * j + 1 = nmax by omega),
        if_neg (show ¬ 2 * j + 1 = parent_left nmin + 1 by omega)]
      exact pairs j hjlt (by omega)
    · -- pairCur
      rw [hsw (parent_left nmin), hsw (parent_left nmin + 1),
        if_neg (show ¬ parent_left nmin = nmax by omega),
        if_neg (show ¬ parent_left nmin = parent_left nmin + 1 by omega),
        if_neg (show ¬ parent_left nmin + 1 = nmax by omega), if_pos rfl]
      rw [e1]
      exact hP
    · -- lows
      intro j hj1 hjlt hjne
      rw [hlen] at hjlt
      have hLj : left (j - 1) = 2 * ((j - 1) / 2) := rfl
      rw [hsw (left (j - 1)), hsw (2 * j),
        if_neg (show ¬ left (j - 1) = nmax by omega),
        if_neg (show ¬ left (j - 1) = parent_left nmin + 1 by omega)]
      by_cases hc : 2 * j = nmin
      · have hj' : j = nmin / 2 := by omega
        have hLpl : left (j - 1) = parent_left nmin := by
          rw [hj']; exact left_node nmin h2 heven
        rw [hLpl, if_pos (by omega)]
        exact hpairP
      · rw [if_neg (show ¬ 2 * j = nmax by omega),
          if_neg (show ¬ 2 * j = parent_left nmin + 1 by omega)]
        exact lows j hj1 hjlt hc
    · -- highs
      intro j hj1 hjlt hjne
      rw [hlen] at hjlt
      have hLj : left (j - 1) = 2 * ((j - 1) / 2) := rfl
      have hnh : nodeHigh (swap v (parent_left nmin + 1) nmax) j =
          if 2 * j + 1 < v.length then getE (swap v (parent_left nmin + 1) nmax) (2 * j + 1)
          else getE (swap v (parent_left nmin + 1) nmax) (2 * j) := by
        unfold nodeHigh
        rw [hlen]
      rw [hnh, hsw (left (j - 1) + 1),
        if_neg (show ¬ left (j - 1) + 1 = nmax by omega)]
      by_cases hc : 2 * j = nmin
      · have hj' : j = nmin / 2 := by omega
        have hLpl : left (j - 1) = parent_left nmin := by
          rw [hj']; exact left_node nmin h2 heven
        rw [hLpl, if_pos rfl, if_neg (show ¬ 2 * j + 1 < v.length by omega),
          hsw (2 * j), if_pos (by omega)]
        exact le_of_lt hlt
      · rw [if_pos (show 2 * j + 1 < v.length by omega),
          hsw (2 * j + 1), if_neg (show ¬ 2 * j + 1 = nmax by omega),
          if_neg (show ¬ 2 * j + 1 = parent_left nmin + 1 by omega)]
        by_cases hc3 : left (j - 1) = parent_left nmin
        · rw [hc3, if_pos rfl]
          have hh := highs j hj1 hjlt hc
          have hnhj : nodeHigh v j = getE v (2 * j + 1) := by
            unfold nodeHigh
            rw [if_pos (by omega)]
          rw [hnhj, hc3] at hh
          exact hh.trans (le_of_lt hlt)
        · rw [if_neg (show ¬ left (j - 1) + 1 = parent_left nmin + 1 by omega)]
          have hh := highs j hj1 hjlt hc
          have hnhj : nodeHigh v j = getE v (2 * j + 1) := by
            unfold nodeHigh
            rw [if_pos (by omega)]
          rw [hnhj] at hh
          exact hh
    · -- dlow
      intro hq j hj1 hjlt hjc
      rw [hlen] at hjlt
      have hLj : left (j - 1) = 2 * ((j - 1) / 2) := rfl
      have hgpd : parent_left (parent_left nmin) = 2 * ((parent_left nmin - 2) / 2 / 2) := rfl
      have hlowP : getE v (parent_left (parent_left nmin)) ≤ getE v (parent_left nmin) := by
        have hl := lows (parent_left nmin / 2) (by omega) (by omega) (by omega)
        rwa [left_node _ hq hplev, h2p] at hl
      rw [hsw (parent_left (parent_left nmin)),
        if_neg (show ¬ parent_left (parent_left nmin) = nmax by omega),
        if_neg (show ¬ parent_left (parent_left nmin) = parent_left nmin + 1 by omega),
        hsw (2 * j)]
      by_cases hc : 2 * j = nmin
      · rw [if_pos (by omega)]
        exact hlowP.trans hpairP
      · rw [if_neg (show ¬ 2 * j = nmax by omega),
          if_neg (show ¬ 2 * j = parent_left nmin + 1 by omega)]
        have hl := lows j hj1 hjlt hc
        rw [hjc] at hl
        exact hlowP.trans hl
    · -- dhigh
      intro hq j hj1 hjlt hjc
      rw [hlen] at hjlt
      have hLj : left (j - 1) = 2 * ((j - 1) / 2) := rfl
      have hgpd : parent_left (parent_left nmin) = 2 * ((parent_left nmin - 2) / 2 / 2) := rfl
      have hnhP : nodeHigh v (parent_left nmin / 2) = getE v (parent_left nmin + 1) := by
        unfold nodeHigh
        rw [h2p, if_pos hpl1]
      have hhighQ : getE v (parent_left nmin + 1) ≤
          getE v (parent_left (parent_left nmin) + 1) := by
        have hh := highs (parent_left nmin / 2) (by omega) (by omega) (by omega)
        rwa [left_node _ hq hplev, hnhP] at hh
      have hnh : nodeHigh (swap v (parent_left nmin + 1) nmax) j =
          if 2 * j + 1 < v.length then getE (swap v (parent_left nmin + 1) nmax) (2 * j + 1)
          else getE (swap v (parent_left nmin + 1) nmax) (2 * j) := by
        unfold nodeHigh
        rw [hlen]
      rw [hnh, hsw (parent_left (parent_left nmin) + 1),
        if_neg (show ¬ parent_left (parent_left nmin) + 1 = nmax by omega),
        if_neg (show ¬ parent_left (parent_left nmin) + 1 = parent_left nmin + 1 by omega)]
      by_cases hc : 2 * j = nmin
      · rw [if_neg (show ¬ 2 * j + 1 < v.length by omega), hsw (2 * j), if_pos (by omega)]
        exact hhighQ
      · rw [if_pos (show 2 * j + 1 < v.length by omega), hsw (2 * j + 1),
          if_neg (show ¬ 2 * j + 1 = nmax by omega),
          if_neg (show ¬ 2 * j + 1 = parent_left nmin + 1 by omega)]
        have hh := highs j hj1 hjlt hc
        have hnhj : nodeHigh v j = getE v (2 * j + 1) := by
          unfold nodeHigh
          rw [if_pos (by omega)]
        rw [hnhj, hjc] at hh
        exact hh.trans hhighQ
    · -- cross1
      intro hq _
      have hgpd : parent_left (parent_left nmin) = 2 * ((parent_left nmin - 2) / 2 / 2) := rfl
      have hlowP : getE v (parent_left (parent_left nmin)) ≤ getE v (parent_left nmin) := by
        have hl := lows (parent_left nmin / 2) (by omega) (by omega) (by omega)
        rwa [left_node _ hq hplev, h2p] at hl
      rw [hsw (parent_left (parent_left nmin)),
        if_neg (show ¬ parent_left (parent_left nmin) = nmax by omega),
        if_neg (show ¬ parent_left (parent_left nmin) = parent_left nmin + 1 by omega),
        hsw (parent_left nmin + 1),
        if_neg (show ¬ parent_left nmin + 1 = nmax by omega), if_pos rfl]
      rw [e1]
      exact hlowP.trans hP
    · -- cross2
      intro hq _
      have hgpd : parent_left (parent_left nmin) = 2 * ((parent_left nmin - 2) / 2 / 2) := rfl
      have hnhP : nodeHigh v (parent_left nmin / 2) = getE v (parent_left nmin + 1) := by
        unfold nodeHigh
        rw [h2p, if_pos hpl1]
      have hhighQ : getE v (parent_left nmin + 1) ≤
          getE v (parent_left (parent_left nmin) + 1) := by
        have hh := highs (parent_left nmin / 2) (by omega) (by omega) (by omega)
        rwa [left_node _ hq hplev, hnhP] at hh
      rw [hsw (parent_left nmin),
        if_neg (show ¬ parent_left nmin = nmax by omega),
        if_neg (show ¬ parent_left nmin = parent_left nmin + 1 by omega),
        hsw (parent_left (parent_left nmin) + 1),
        if_neg (show ¬ parent_left (parent_left nmin) + 1 = nmax by omega),
        if_neg (show ¬ parent_left (parent_left nmin) + 1 = parent_left nmin + 1 by omega)]
      exact hpairP.trans hhighQ
    · -- ybound
      intro hq _
      have hgpd : parent_left (parent_left nmin) = 2 * ((parent_left nmin - 2) / 2 / 2) := rfl
      have hlowP : getE v (parent_left (parent_left nmin)) ≤ getE v (parent_left nmin) := by
        have hl := lows (parent_left nmin / 2) (by omega) (by omega) (by omega)
        rwa [left_node _ hq hplev, h2p] at hl
      refine Or.inr ?_
      rw [hsw (parent_left (parent_left nmin)),
        if_neg (show ¬ parent_left (parent_left nmin) = nmax by omega),
        if_neg (show ¬ parent_left (parent_left nmin) = parent_left nmin + 1 by omega),
        hsw (parent_left nmin),
        if_neg (show ¬ parent_left nmin = nmax by omega),
        if_neg (show ¬ parent_left nmin = parent_left nmin + 1 by omega)]
      exact hlowP
  · -- complete current node: nmax = nmin + 1
    subst hC
    refine SiftInv.mk ?_ ?_ ?_ ?_ ?_ ?_ ?_ ?_ ?_ ?_ ?_ ?_
    · exact hplev
    · rw [hlen]; omega
    · exact Or.inr rfl
    · -- pairs
      intro j hjlt hjne
      rw [hlen] at hjlt
      rw [hsw (2 * j), hsw (2 * j + 1),
        if_neg (show ¬ 2 * j = nmin + 1 by omega),
        if_neg (show ¬ 2 * j = parent_left nmin + 1 by omega)]
      by_cases hc : 2 * j = nmin
      · rw [if_pos (by omega), hc]
        exact cross2 h2 rfl
      · rw [if_neg (show ¬ 2 * j + 1 = nmin + 1 by omega),
          if_neg (show ¬ 2 * j + 1 = parent_left nmin + 1 by omega)]
        exact pairs j hjlt hc
    · -- pairCur
      rw [hsw (parent_left nmin), hsw (parent_left nmin + 1),
        if_neg (show ¬ parent_left nmin = nmin + 1 by omega),
        if_neg (show ¬ parent_left nmin = parent_left nmin + 1 by omega),
        if_neg (show ¬ parent_left nmin + 1 = nmin + 1 by omega), if_pos rfl]
      exact cross1 h2 rfl
    · -- lows
      intro j hj1 hjlt hjne
      rw [hlen] at hjlt
      have hLj : left (j - 1) = 2 * ((j - 1) / 2) := rfl
      rw [hsw (left (j - 1)), hsw (2 * j),
        if_neg (show ¬ left (j - 1) = nmin + 1 by omega),
        if_neg (show ¬ left (j - 1) = parent_left nmin + 1 by omega),
        if_neg (show ¬ 2 * j = nmin + 1 by omega),
        if_neg (show ¬ 2 * j = parent_left nmin + 1 by omega)]
      by_cases hc : 2 * j = nmin
      · have hj' : j = nmin / 2 := by omega
        have hLpl : left (j - 1) = parent_left nmin := by
          rw [hj']; exact left_node nmin h2 heven
        rw [hLpl, hc]
        exact hP
      · exact lows j hj1 hjlt hc
    · -- highs
      intro j hj1 hjlt hjne
      rw [hlen] at hjlt
      have hLj : left (j - 1) = 2 * ((j - 1) / 2) := rfl
      have hnh : nodeHigh (swap v (parent_left nmin + 1) (nmin + 1)) j =
          if 2 * j + 1 < v.length then getE (swap v (parent_left nmin + 1) (nmin + 1)) (2 * j + 1)
          else getE (swap v (parent_left nmin + 1) (nmin + 1)) (2 * j) := by
        unfold nodeHigh
        rw [hlen]
      rw [hnh, hsw (left (j - 1) + 1)]
      by_cases hc : 2 * j = nmin
      · have hj' : j = nmin / 2 := by omega
        have hLpl : left (j - 1) = parent_left nmin := by
          rw [hj']; exact left_node nmin h2 heven
        rw [hLpl,
          if_neg (show ¬ parent_left nmin + 1 = nmin + 1 by omega), if_pos rfl,
          if_pos (show 2 * j + 1 < v.length by omega), hsw (2 * j + 1), if_pos (by omega)]
        exact le_of_lt hlt
      · by_cases hc2 : left (j - 1) = nmin
        · rw [hc2, if_pos rfl]
          have hval : (if 2 * j + 1 < v.length
              then getE (swap v (parent_left nmin + 1) (nmin + 1)) (2 * j + 1)
              else getE (swap v (parent_left nmin + 1) (nmin + 1)) (2 * j)) = nodeHigh v j := by
            unfold nodeHigh
            split
            · rw [hsw (2 * j + 1), if_neg (show ¬ 2 * j + 1 = nmin + 1 by omega),
                if_neg (show ¬ 2 * j + 1 = parent_left nmin + 1 by omega)]
            · rw [hsw (2 * j), if_neg (show ¬ 2 * j = nmin + 1 by omega),
                if_neg (show ¬ 2 * j = parent_left nmin + 1 by omega)]
          rw [hval]
          exact dhigh h2 j hj1 hjlt hc2
        · have hval : (if 2 * j + 1 < v.length
              then getE (swap v (parent_left nmin + 1) (nmin + 1)) (2 * j + 1)
              else getE (swap v (parent_left nmin + 1) (nmin + 1)) (2 * j)) = nodeHigh v j := by
            unfold nodeHigh
            split
            · rw [hsw (2 * j + 1), if_neg (show ¬ 2 * j + 1 = nmin + 1 by omega),
                if_neg (show ¬ 2 * j + 1 = parent_left nmin + 1 by omega)]
            · rw [hsw (2 * j), if_neg (show ¬ 2 * j = nmin + 1 by omega),
                if_neg (show ¬ 2 * j = parent_left nmin + 1 by omega)]
          rw [hval, if_neg (show ¬ left (j - 1) + 1 = nmin + 1 by omega)]
          by_cases hc3 : left (j - 1) = parent_left nmin
          · rw [if_pos (show left (j - 1) + 1 = parent_left nmin + 1 by omega)]
            have hh := highs j hj1 hjlt hc
            rw [hc3] at hh
            exact hh.trans (le_of_lt hlt)
          · rw [if_neg (show ¬ left (j - 1) + 1 = parent_left nmin + 1 by omega)]
            exact highs j hj1 hjlt hc
    · -- dlow
      intro hq j hj1 hjlt hjc
      rw [hlen] at hjlt
      have hLj : left (j - 1) = 2 * ((j - 1) / 2) := rfl
      have hgpd : parent_left (parent_left nmin) = 2 * ((parent_left nmin - 2) / 2 / 2) := rfl
      have hlowP : getE v (parent_left (parent_left nmin)) ≤ getE v (parent_left nmin) := by
        have hl := lows (parent_left nmin / 2) (by omega) (by omega) (by omega)
        rwa [left_node _ hq hplev, h2p] at hl
      rw [hsw (parent_left (parent_left nmin)),
        if_neg (show ¬ parent_left (parent_left nmin) = nmin + 1 by omega),
        if_neg (show ¬ parent_left (parent_left nmin) = parent_left nmin + 1 by omega),
        hsw (2 * j), if_neg (show ¬ 2 * j = nmin + 1 by omega),
        if_neg (show ¬ 2 * j = parent_left nmin + 1 by omega)]
      by_cases hc : 2 * j = nmin
      · rw [hc]
        exact hlowP.trans hP
      · have hl := lows j hj1 hjlt hc
        rw [hjc] at hl
        exact hlowP.trans hl
    · -- dhigh
      intro hq j hj1 hjlt hjc
      rw [hlen] at hjlt
      have hLj : left (j - 1) = 2 * ((j - 1) / 2) := rfl
      have hgpd : parent_left (parent_left nmin) = 2 * ((parent_left nmin - 2) / 2 / 2) := rfl
      have hnhP : nodeHigh v (parent_left nmin / 2) = getE v (parent_left nmin + 1) := by
        unfold nodeHigh
        rw [h2p, if_pos hpl1]
      have hhighQ : getE v (parent_left nmin + 1) ≤
          getE v (parent_left (parent_left nmin) + 1) := by
        have hh := highs (parent_left nmin / 2) (by omega) (by omega) (by omega)
        rwa [left_node _ hq hplev, hnhP] at hh
      have hnh : nodeHigh (swap v (parent_left nmin + 1) (nmin + 1)) j =
          if 2 * j + 1 < v.length then getE (swap v (parent_left nmin + 1) (nmin + 1)) (2 * j + 1)
          else getE (swap v (parent_left nmin + 1) (nmin + 1)) (2 * j) := by
        unfold nodeHigh
        rw [hlen]
      rw [hnh, hsw (parent_left (parent_left nmin) + 1),
        if_neg (show ¬ parent_left (parent_left nmin) + 1 = nmin + 1 by omega),
        if_neg (show ¬ parent_left (parent_left nmin) + 1 = parent_left nmin + 1 by omega)]
      by_cases hc : 2 * j = nmin
      · rw [if_pos (show 2 * j + 1 < v.length by omega), hsw (2 * j + 1), if_pos (by omega)]
        exact hhighQ
      · have hval : (if 2 * j + 1 < v.length
            then getE (swap v (parent_left nmin + 1) (nmin + 1)) (2 * j + 1)
            else getE (swap v (parent_left nmin + 1) (nmin + 1)) (2 * j)) = nodeHigh v j := by
          unfold nodeHigh
          split
          · rw [hsw (2 * j + 1), if_neg (show ¬ 2 * j + 1 = nmin + 1 by omega),
              if_neg (show ¬ 2 * j + 1 = parent_left nmin + 1 by omega)]
          · rw [hsw (2 * j), if_neg (show ¬ 2 * j = nmin + 1 by omega),
              if_neg (show ¬ 2 * j = parent_left nmin + 1 by omega)]
        rw [hval]
        have hh := highs j hj1 hjlt hc
        rw [hjc] at hh
        exact hh.trans hhighQ
    · -- cross1
      intro hq _
      have hgpd : parent_left (parent_left nmin) = 2 * ((parent_left nmin - 2) / 2 / 2) := rfl
      have hlowP : getE v (parent_left (parent_left nmin)) ≤ getE v (parent_left nmin) := by
        have hl := lows (parent_left nmin / 2) (by omega) (by omega) (by omega)
        rwa [left_node _ hq hplev, h2p] at hl
      rw [hsw (parent_left (parent_left nmin)),
        if_neg (show ¬ parent_left (parent_left nmin) = nmin + 1 by omega),
        if_neg (show ¬ parent_left (parent_left nmin) = parent_left nmin + 1 by omega),
        hsw (parent_left nmin + 1),
        if_neg (show ¬ parent_left nmin + 1 = nmin + 1 by omega), if_pos rfl]
      exact hlowP.trans (hpairP.trans (le_of_lt hlt))
    · -- cross2
      intro hq _
      have hgpd : parent_left (parent_left nmin) = 2 * ((parent_left nmin - 2) / 2 / 2) := rfl
      have hnhP : nodeHigh v (parent_left nmin / 2) = getE v (parent_left nmin + 1) := by
        unfold nodeHigh
        rw [h2p, if_pos hpl1]
      have hhighQ : getE v (parent_left nmin + 1) ≤
          getE v (parent_left (parent_left nmin) + 1) := by
        have hh := highs (parent_left nmin / 2) (by omega) (by omega) (by omega)
        rwa [left_node _ hq hplev, hnhP] at hh
      rw [hsw (parent_left nmin),
        if_neg (show ¬ parent_left nmin = nmin + 1 by omega),
        if_neg (show ¬ parent_left nmin = parent_left nmin + 1 by omega),
        hsw (parent_left (parent_left nmin) + 1),
        if_neg (show ¬ parent_left (parent_left nmin) + 1 = nmin + 1 by omega),
        if_neg (show ¬ parent_left (parent_left nmin) + 1 = parent_left nmin + 1 by omega)]
      exact hpairP.trans hhighQ
    · -- ybound
      intro hq _
      have hgpd : parent_left (parent_left nmin) = 2 * ((parent_left nmin - 2) / 2 / 2) := rfl
      have hlowP : getE v (parent_left (parent_left nmin)) ≤ getE v (parent_left nmin) := by
        have hl := lows (parent_left nmin / 2) (by omega) (by omega) (by omega)
        rwa [left_node _ hq hplev, h2p] at hl
      refine Or.inr ?_
      rw [hsw (parent_left (parent_left nmin)),
        if_neg (show ¬ parent_left (parent_left nmin) = nmin + 1 by omega),
        if_neg (show ¬ parent_left (parent_left nmin) = parent_left nmin + 1 by omega),
        hsw (parent_left nmin),
        if_neg (show ¬ parent_left nmin = nmin + 1 by omega),
        if_neg (show ¬ parent_left nmin = parent_left nmin + 1 by omega)]
      exact hlowP

theorem siftInv_stop (v : List α) (nmin nmax : Nat) (inv : SiftInv v nmin nmax)
    (h2 : 2 ≤ nmin) (hge1 : ¬ getE v nmin < getE v (parent_left nmin))
    (hge2 : ¬ getE v (parent_left nmin + 1) < getE v nmax) : Valid v := by
  obtain ⟨heven, hmax, hshape, pairs, pairCur, lows, highs, dlow, dhigh, cross1, cross2,
    ybound⟩ := inv
  have hpd : parent_left nmin = 2 * ((nmin - 2) / 2 / 2) := rfl
  have hple : parent_left nmin + 2 ≤ nmin := by omega
  constructor
  · intro j hj
    by_cases hc : 2 * j = nmin
    · rcases hshape with ⟨e1, e2⟩ | hC
      · omega
      · rw [hc, show nmin + 1 = nmax by omega]
        exact pairCur
    · exact pairs j hj hc
  · intro j hj1 hjlt
    have hLj : left (j - 1) = 2 * ((j - 1) / 2) := rfl
    by_cases hc : 2 * j = nmin
    · have hj' : j = nmin / 2 := by omega
      have hLpl : left (j - 1) = parent_left nmin := by
        rw [hj']; exact left_node nmin h2 heven
      constructor
      · rw [hLpl, hc]
        exact not_lt.mp hge1
      · rw [hLpl]
        rcases hshape with ⟨e1, e2⟩ | hC
        · have hnhj : nodeHigh v j = getE v (2 * j) := by
            unfold nodeHigh
            rw [if_neg (by omega)]
          rw [hnhj, hc]
          rw [e1] at hge2
          exact not_lt.mp hge2
        · have hnhj : nodeHigh v j = getE v (2 * j + 1) := by
            unfold nodeHigh
            rw [if_pos (by omega)]
          rw [hnhj, show 2 * j + 1 = nmax by omega]
          exact not_lt.mp hge2
    · exact ⟨lows j hj1 hjlt hc, highs j hj1 hjlt hc⟩

theorem siftInv_root (v : List α) (nmin nmax : Nat) (inv : SiftInv v nmin nmax)
    (h2 : nmin < 2) : Valid v := by
  obtain ⟨heven, hmax, hshape, pairs, pairCur, lows, highs, dlow, dhigh, cross1, cross2,
    ybound⟩ := inv
  have h0 : nmin = 0 := by omega
  subst h0
  constructor
  · intro j hj
    by_cases hc : 2 * j = 0
    · rcases hshape with ⟨e1, e2⟩ | hC
      · omega
      · rw [hc, show 0 + 1 = nmax by omega]
        exact pairCur
    · exact pairs j hj hc
  · intro j hj1 hjlt
    exact ⟨lows j hj1 hjlt (by omega), highs j hj1 hjlt (by omega)⟩

theorem siftUp_valid : ∀ (nmin : Nat) (v : List α) (nmax : Nat),
    SiftInv v nmin nmax → Valid (siftUp v nmin nmax) := by
  intro nmin
  induction nmin using Nat.strong_induction_on with
  | _ nmin ih =>
    intro v nmax inv
    unfold siftUp
    split
    · next hroot =>
      exact siftInv_root v nmin nmax inv (by simpa [is_root] using hroot)
    · next hroot =>
      have h2 : 2 ≤ nmin := by
        have he := inv.heven
        simp only [is_root, decide_eq_true_eq] at hroot
        omega
      split
      · next hlt =>
        exact ih (parent_left nmin) (parent_left_lt _ h2) _ _
          (siftInv_branch1 v nmin nmax inv h2 hlt)
      · next hge =>
        split
        · next hlt2 =>
          exact ih (parent_left nmin) (parent_left_lt _ h2) _ _
            (siftInv_branch2 v nmin nmax inv h2 hge hlt2)
        · next hge2 =>
          exact siftInv_stop v nmin nmax inv h2 hge hge2

theorem getE_eq_getElem (v : List α) (i : Nat) (h : i < v.length) : getE v i = v[i] := by
  simp [getE, List.getD_eq_getElem?_getD, List.getElem?_eq_getElem h]

theorem getE_append_lt (w u : List α) (i : Nat) (h : i < w.length) :
    getE (w ++ u) i = getE w i := by
  unfold getE
  rw [List.getD_eq_getElem?_getD, List.getD_eq_getElem?_getD, List.getElem?_append, if_pos h]

theorem getE_append_self (w : List α) (x : α) : getE (w ++ [x]) w.length = x := by
  unfold getE
  rw [List.getD_eq_getElem?_getD, List.getElem?_append_right (le_refl _)]
  simp

theorem length_siftUp : ∀ (a : Nat) (v : List α) (b : Nat),
    (siftUp v a b).length = v.length := by
  intro a
  induction a using Nat.strong_induction_on with
  | _ a ih =>
    intro v b
    unfold siftUp
    split
    · rfl
    · next hroot =>
      have h2 : 2 ≤ a := by
        simp only [is_root, decide_eq_true_eq] at hroot
        omega
      split
      · rw [ih (parent_left a) (parent_left_lt _ h2), length_swap]
      · split
        · rw [ih (parent_left a) (parent_left_lt _ h2), length_swap]
        · rfl

theorem length_interval_heap_push (v : List α) :
    (interval_heap_push v).length = v.length := by
  unfold interval_heap_push
  split
  · rw [length_siftUp, length_swap]
  · rw [length_siftUp]

/-- Entry into the sift-up loop when the pushed item starts a new, single-item
last node (odd new length). -/
theorem siftInv_entry_incomplete (w : List α) (x : α) (hw : Valid w)
    (hwev : w.length % 2 = 0) : SiftInv (w ++ [x]) w.length w.length := by
  have hlen : (w ++ [x]).length = w.length + 1 := by simp
  have hsame : ∀ i, i < w.length → getE (w ++ [x]) i = getE w i := fun i hi =>
    getE_append_lt w [x] i hi
  refine SiftInv.mk ?_ ?_ ?_ ?_ ?_ ?_ ?_ ?_ ?_ ?_ ?_ ?_
  · exact hwev
  · omega
  · exact Or.inl ⟨rfl, hlen⟩
  · intro j hjlt hjne
    rw [hlen] at hjlt
    rw [hsame (2 * j) (by omega), hsame (2 * j + 1) (by omega)]
    exact hw.1 j (by omega)
  · exact le_refl _
  · intro j hj1 hjlt hjne
    rw [hlen] at hjlt
    have hLj : left (j - 1) = 2 * ((j - 1) / 2) := rfl
    rw [hsame (left (j - 1)) (by omega), hsame (2 * j) (by omega)]
    exact (hw.2 j hj1 (by omega)).1
  · intro j hj1 hjlt hjne
    rw [hlen] at hjlt
    have hLj : left (j - 1) = 2 * ((j - 1) / 2) := rfl
    have hnh : nodeHigh (w ++ [x]) j = nodeHigh w j := by
      unfold nodeHigh
      rw [hlen, if_pos (by omega), if_pos (by omega)]
      exact hsame (2 * j + 1) (by omega)
    rw [hnh, hsame (left (j - 1) + 1) (by omega)]
    exact (hw.2 j hj1 (by omega)).2
  · intro h2 j hj1 hjlt hjc
    rw [hlen] at hjlt
    have hLj : left (j - 1) = 2 * ((j - 1) / 2) := rfl
    exact absurd hjlt (by omega)
  · intro h2 j hj1 hjlt hjc
    rw [hlen] at hjlt
    have hLj : left (j - 1) = 2 * ((j - 1) / 2) := rfl
    exact absurd hjlt (by omega)
  · intro h2 hEq
    exact absurd hEq (by omega)
  · intro h2 hEq
    exact absurd hEq (by omega)
  · intro h2 hEq
    exact absurd hEq (by omega)

/-- Entry into the sift-up loop when the pushed item completes the last node
(even new length): `v1` is the vector after the conditional swap that orders
the last node, and one of the two last slots holds the old single value of
that node. -/
theorem siftInv_entry_complete (w : List α) (x : α) (hw : Valid w)
    (hodd : w.length % 2 = 1) (v1 : List α) (hlen1 : v1.length = w.length + 1)
    (hsame : ∀ i, i < w.length - 1 → getE v1 i = getE w i)
    (hpair : getE v1 (w.length - 1) ≤ getE v1 w.length)
    (hmem : getE v1 (w.length - 1) = getE w (w.length - 1) ∨
      getE v1 w.length = getE w (w.length - 1)) :
    SiftInv v1 (w.length - 1) w.length := by
  have hn1 : 1 ≤ w.length := by omega
  refine SiftInv.mk ?_ ?_ ?_ ?_ ?_ ?_ ?_ ?_ ?_ ?_ ?_ ?_
  · omega
  · omega
  · exact Or.inr (by omega)
  · intro j hjlt hjne
    rw [hlen1] at hjlt
    rw [hsame (2 * j) (by omega), hsame (2 * j + 1) (by omega)]
    exact hw.1 j (by omega)
  · exact hpair
  · intro j hj1 hjlt hjne
    rw [hlen1] at hjlt
    have hLj : left (j - 1) = 2 * ((j - 1) / 2) := rfl
    rw [hsame (left (j - 1)) (by omega), hsame (2 * j) (by omega)]
    exact (hw.2 j hj1 (by omega)).1
  · intro j hj1 hjlt hjne
    rw [hlen1] at hjlt
    have hLj : left (j - 1) = 2 * ((j - 1) / 2) := rfl
    have hnh : nodeHigh v1 j = nodeHigh w j := by
      unfold nodeHigh
      rw [hlen1, if_pos (by omega), if_pos (by omega)]
      exact hsame (2 * j + 1) (by omega)
    rw [hnh, hsame (left (j - 1) + 1) (by omega)]
    exact (hw.2 j hj1 (by omega)).2
  · intro h2 j hj1 hjlt hjc
    rw [hlen1] at hjlt
    have hLj : left (j - 1) = 2 * ((j - 1) / 2) := rfl
    exact absurd hjlt (by omega)
  · intro h2 j hj1 hjlt hjc
    rw [hlen1] at hjlt
    have hLj : left (j - 1) = 2 * ((j - 1) / 2) := rfl
    exact absurd hjlt (by omega)
  · -- cross1
    intro h2 _
    have hpd : parent_left (w.length - 1) = 2 * ((w.length - 1 - 2) / 2 / 2) := rfl
    have hple : parent_left (w.length - 1) + 2 ≤ w.length - 1 := by omega
    have hkm : 2 * ((w.length - 1) / 2) = w.length - 1 := by omega
    have h1 := (hw.2 ((w.length - 1) / 2) (by omega) (by omega)).1
    rw [hkm, left_node (w.length - 1) h2 (by omega)] at h1
    rw [hsame _ (by omega)]
    rcases hmem with hm | hm
    · calc getE w (parent_left (w.length - 1)) ≤ getE w (w.length - 1) := h1
        _ = getE v1 (w.length - 1) := hm.symm
        _ ≤ getE v1 w.length := hpair
    · rw [← hm] at h1
      exact h1
  · -- cross2
    intro h2 _
    have hpd : parent_left (w.length - 1) = 2 * ((w.length - 1 - 2) / 2 / 2) := rfl
    have hple : parent_left (w.length - 1) + 2 ≤ w.length - 1 := by omega
    have hkm : 2 * ((w.length - 1) / 2) = w.length - 1 := by omega
    have h2' := (hw.2 ((w.length - 1) / 2) (by omega) (by omega)).2
    have hnhkm : nodeHigh w ((w.length - 1) / 2) = getE w (w.length - 1) := by
      unfold nodeHigh
      rw [hkm, if_neg (by omega)]
    rw [hnhkm, left_node (w.length - 1) h2 (by omega)] at h2'
    rw [hsame (parent_left (w.length - 1) + 1) (by omega)]
    rcases hmem with hm | hm
    · rw [hm]
      exact h2'
    · rw [← hm] at h2'
      exact hpair.trans h2'
  · -- ybound
    intro h2 _
    have hpd : parent_left (w.length - 1) = 2 * ((w.length - 1 - 2) / 2 / 2) := rfl
    have hple : parent_left (w.length - 1) + 2 ≤ w.length - 1 := by omega
    have hkm : 2 * ((w.length - 1) / 2) = w.length - 1 := by omega
    have h1 := (hw.2 ((w.length - 1) / 2) (by omega) (by omega)).1
    rw [hkm, left_node (w.length - 1) h2 (by omega)] at h1
    have h2' := (hw.2 ((w.length - 1) / 2) (by omega) (by omega)).2
    have hnhkm : nodeHigh w ((w.length - 1) / 2) = getE w (w.length - 1) := by
      unfold nodeHigh
      rw [hkm, if_neg (by omega)]
    rw [hnhkm, left_node (w.length - 1) h2 (by omega)] at h2'
    rcases hmem with hm | hm
    · refine Or.inr ?_
      rw [hsame (parent_left (w.length - 1)) (by omega), hm]
      exact h1
    · refine Or.inl ?_
      rw [hsame (parent_left (w.length - 1) + 1) (by omega), hm]
      exact h2'

/-- Pushing one item onto a valid heap restores validity (contract of
`interval_heap_push`). -/
theorem interval_heap_push_valid (w : List α) (x : α) (hw : Valid w) :
    Valid (interval_heap_push (w ++ [x])) := by
  have hlen : (w ++ [x]).length = w.length + 1 := by simp
  unfold interval_heap_push
  rw [hlen, Nat.add_sub_cancel]
  rcases Nat.even_or_odd w.length with ⟨m, hm⟩ | ⟨m, hm⟩
  · have hL : left w.length = w.length := by unfold left; omega
    rw [hL, if_neg (lt_irrefl _)]
    exact siftUp_valid _ _ _ (siftInv_entry_incomplete w x hw (by omega))
  · have hL : left w.length = w.length - 1 := by unfold left; omega
    rw [hL]
    split
    · next hswap =>
      apply siftUp_valid
      apply siftInv_entry_complete w x hw (by omega)
      · rw [length_swap, hlen]
      · intro i hi
        rw [getE_swap _ _ _ _ (by omega) (by omega), if_neg (by omega), if_neg (by omega)]
        exact getE_append_lt w [x] i (by omega)
      · rw [getE_swap _ _ _ _ (by omega) (by omega), if_neg (by omega), if_pos rfl,
          getE_swap _ _ _ _ (by omega) (by omega), if_pos rfl]
        exact le_of_lt hswap
      · refine Or.inr ?_
        rw [getE_swap _ _ _ _ (by omega) (by omega), if_pos rfl]
        exact getE_append_lt w [x] _ (by omega)
    · next hnoswap =>
      apply siftUp_valid
      apply siftInv_entry_complete w x hw (by omega)
      · exact hlen
      · intro i hi
        exact getE_append_lt w [x] i (by omega)
      · exact not_lt.mp hnoswap
      · exact Or.inl (getE_append_lt w [x] _ (by omega))

theorem push_valid (v : List α) (x : α) (hv : Valid v) : Valid (push v x) :=
  interval_heap_push_valid v x hv

theorem push_nil (x : α) : push ([] : List α) x = [x] := by
  unfold push interval_heap_push
  simp only [List.nil_append, List.length_singleton]
  have hL : left (1 - 1) = 0 := rfl
  rw [hL, if_neg (lt_irrefl _)]
  unfold siftUp
  rfl

/-- The bulk-build loop acts only on the first `m` slots. -/
theorem from_vec_go_append : ∀ (fuel m k : Nat) (l r : List α), m + 1 - k = fuel →
    m ≤ l.length → from_vec_go m (l ++ r) k = from_vec_go m l k ++ r := by
  intro fuel
  induction fuel using Nat.strong_induction_on with
  | _ fuel ih =>
    intro m k l r hf hm
    unfold from_vec_go
    split
    · next hk =>
      rw [List.take_append_of_le_length (by omega), List.drop_append_of_le_length (by omega),
        ← List.append_assoc]
      exact ih (m + 1 - (k + 1)) (by omega) m (k + 1) _ r rfl
        (by simp [length_interval_heap_push]; omega)
    · rfl

/-- Unrolling the last iteration of the bulk-build loop. -/
theorem from_vec_go_last : ∀ (fuel m k : Nat) (w : List α), m + 2 - k = fuel →
    2 ≤ k → k ≤ m + 1 → w.length = m + 1 →
    from_vec_go (m + 1) w k = interval_heap_push (from_vec_go m w k) := by
  intro fuel
  induction fuel using Nat.strong_induction_on with
  | _ fuel ih =>
    intro m k w hf hk2 hk hw
    by_cases hkm : k = m + 1
    · subst hkm
      conv_lhs => unfold from_vec_go
      rw [dif_pos (le_refl _)]
      rw [List.take_of_length_le (by omega), List.drop_eq_nil_of_le (by omega), List.append_nil]
      conv_lhs => unfold from_vec_go
      rw [dif_neg (by omega)]
      conv_rhs => unfold from_vec_go
      rw [dif_neg (by omega)]
    · have hkm' : k ≤ m := by omega
      conv_lhs => unfold from_vec_go
      rw [dif_pos (by omega)]
      conv_rhs => rw [show from_vec_go m w k =
        from_vec_go m (interval_heap_push (w.take k) ++ w.drop k) (k + 1) from by
          conv_lhs => unfold from_vec_go
          rw [dif_pos hkm']]
      exact ih (m + 2 - (k + 1)) (by omega) m (k + 1) _ rfl (by omega) (by omega)
        (by simp [length_interval_heap_push]; omega)

/-- Bulk build coincides with pushing the items one at a time (claim C9's
underlying identity). -/
theorem from_vec_eq_foldl (l : List α) :
    from_vec_and_comparator l = List.foldl (fun d x => push d x) [] l := by
  induction l using List.reverseRecOn with
  | nil =>
    unfold from_vec_and_comparator from_vec_go
    simp
  | append_singleton l x ihl =>
    by_cases hl : l = []
    · subst hl
      unfold from_vec_and_comparator from_vec_go
      simp only [List.nil_append, List.length_singleton, List.foldl_nil, List.foldl_cons]
      rw [dif_neg (by omega), push_nil]
    · have hml : 1 ≤ l.length := List.length_pos.mpr hl
      unfold from_vec_and_comparator
      rw [show (l ++ [x]).length = l.length + 1 by simp]
      rw [from_vec_go_last (l.length + 2 - 2) l.length 2 (l ++ [x]) rfl (le_refl _)
        (by omega) (by simp)]
      rw [from_vec_go_append (l.length + 1 - 2) l.length 2 l [x] rfl (le_refl _)]
      rw [List.foldl_append, List.foldl_cons, List.foldl_nil, ← ihl]
      rfl

theorem from_vec_valid (l : List α) : Valid (from_vec_and_comparator l) := by
  rw [from_vec_eq_foldl]
  induction l using List.reverseRecOn with
  | nil => exact valid_of_short [] (by simp)
  | append_singleton l x ihl =>
    rw [List.foldl_append, List.foldl_cons, List.foldl_nil]
    exact interval_heap_push_valid _ x ihl

/-! ### The min-side sift-down (`update_min`) -/

/-- Precondition of `update_min` (source lines 99-101): the root's min slot was
replaced without violating rule (1) at the root; everything else holds, so the
only possibly-broken statements are the low-containments of the root's
children. -/
structure MinPre (v : List α) : Prop where
  root01 : 2 ≤ v.length → getE v 0 ≤ getE v 1
  pairs : ∀ j, 1 ≤ j → 2 * j + 1 < v.length → getE v (2 * j) ≤ getE v (2 * j + 1)
  highs : ∀ j, 1 ≤ j → 2 * j < v.length → nodeHigh v j ≤ getE v (left (j - 1) + 1)
  lows : ∀ j, 3 ≤ j → 2 * j < v.length → getE v (left (j - 1)) ≤ getE v (2 * j)

/-- Loop invariant of `update_min` at current low index `l`: everything holds
except the low-containments of the current node's children, and those children
are still bounded below by the current node's parent's low item. -/
structure UMinInv (v : List α) (l : Nat) : Prop where
  leven : l % 2 = 0
  pairs : ∀ j, 2 * j + 1 < v.length → getE v (2 * j) ≤ getE v (2 * j + 1)
  highs : ∀ j, 1 ≤ j → 2 * j < v.length → nodeHigh v j ≤ getE v (left (j - 1) + 1)
  lows : ∀ j, 1 ≤ j → 2 * j < v.length → left (j - 1) ≠ l →
    getE v (left (j - 1)) ≤ getE v (2 * j)
  wmin : 2 ≤ l → ∀ j, 1 ≤ j → 2 * j < v.length → left (j - 1) = l →
    getE v (parent_left l) ≤ getE v (2 * j)

theorem min_child_cases (v : List α) (l : Nat) :
    min_child v l = l * 2 + 2 ∨ min_child v l = l * 2 + 4 := by
  unfold min_child
  split
  · exact Or.inl rfl
  · exact Or.inr rfl

/-- The selected child's low item is the smaller of the (existing) children's
low items. -/
theorem min_child_sel (v : List α) (l : Nat) :
    (l * 2 + 2 < v.length → getE v (min_child v l) ≤ getE v (l * 2 + 2)) ∧
    (l * 2 + 4 < v.length → getE v (min_child v l) ≤ getE v (l * 2 + 4)) := by
  unfold min_child
  split
  · next hcond =>
    refine ⟨fun _ => le_refl _, fun h4 => ?_⟩
    rcases hcond with h | h
    · omega
    · exact le_of_lt h
  · next hcond =>
    have hno := not_or.mp hcond
    exact ⟨fun _ => not_lt.mp hno.2, fun _ => le_refl _⟩

theorem update_min_loop_valid : ∀ (fuel : Nat) (v : List α) (l : Nat),
    v.length - l = fuel → UMinInv v l → Valid (update_min_loop v l) := by
  intro fuel
  induction fuel using Nat.strong_induction_on with
  | _ fuel ih =>
    intro v l hf inv
    obtain ⟨leven, pairs, highs, lows, wmin⟩ := inv
    unfold update_min_loop
    split
    · next h1 =>
      -- no children: the current node's children statements are vacuous
      constructor
      · exact pairs
      · intro j hj1 hjlt
        refine ⟨?_, highs j hj1 hjlt⟩
        by_cases hc : left (j - 1) = l
        · have hLj : left (j - 1) = 2 * ((j - 1) / 2) := rfl
          exact absurd hjlt (by omega)
        · exact lows j hj1 hjlt hc
    · next h1 =>
      split
      · next hlt =>
        -- descend into the chosen child
        have hb := min_child_bounds v l h1
        have hcc := min_child_cases v l
        have hsel := min_child_sel v l
        generalize hch : min_child v l = c at hlt hb hcc hsel ⊢
        obtain ⟨hbl, hbu⟩ := hb
        have hl1 : l + 1 < v.length := by omega
        have h2l : 2 * (l / 2) = l := by omega
        have h2c : 2 * (c / 2) = c := by omega
        have hpc : parent_left c = l := by
          unfold parent_left left
          omega
        have hpair_l : getE v l ≤ getE v (l + 1) := by
          have hp := pairs (l / 2) (by omega)
          rwa [h2l] at hp
        have hlc : left (c / 2 - 1) = l := by
          unfold left
          omega
        have hv1 : ∀ x, getE (swap v c l) x =
            if x = l then getE v c else if x = c then getE v l else getE v x := fun x =>
          getE_swap v c l x hbu (by omega)
        have hlenv1 : (swap v c l).length = v.length := length_swap v c l
        have hlen2 : (fix_pair_min (swap v c l) c).length = v.length := by
          rw [length_fix_pair_min, hlenv1]
        have e_other : ∀ x, x ≠ l → x ≠ c → x ≠ c + 1 →
            getE (fix_pair_min (swap v c l) c) x = getE v x := by
          intro x hx1 hx2 hx3
          unfold fix_pair_min
          split
          · split
            · rw [getE_swap _ _ _ _ (by omega) (by omega), if_neg hx3, if_neg hx2,
                hv1 x, if_neg hx1, if_neg hx2]
            · rw [hv1 x, if_neg hx1, if_neg hx2]
          · rw [hv1 x, if_neg hx1, if_neg hx2]
        have e_l : getE (fix_pair_min (swap v c l) c) l = getE v c := by
          unfold fix_pair_min
          split
          · split
            · rw [getE_swap _ _ _ _ (by omega) (by omega), if_neg (by omega),
                if_neg (by omega), hv1 l, if_pos rfl]
            · rw [hv1 l, if_pos rfl]
          · rw [hv1 l, if_pos rfl]
        have e_ch_low : getE v c ≤ getE (fix_pair_min (swap v c l) c) c := by
          unfold fix_pair_min
          split
          · next hA =>
            split
            · next hAB =>
              rw [getE_swap _ _ _ _ (by omega) (by omega), if_neg (by omega), if_pos rfl,
                hv1 (c + 1), if_neg (by omega), if_neg (by omega)]
              have hp := pairs (c / 2) (by omega)
              rwa [h2c] at hp
            · rw [hv1 c, if_neg (by omega), if_pos rfl]
              exact le_of_lt hlt
          · rw [hv1 c, if_neg (by omega), if_pos rfl]
            exact le_of_lt hlt
        have e_ch_up : getE (fix_pair_min (swap v c l) c) c ≤ getE v l := by
          unfold fix_pair_min
          split
          · next hA =>
            split
            · next hAB =>
              rw [getE_swap _ _ _ _ (by omega) (by omega), if_neg (by omega), if_pos rfl]
              rw [hv1 (c + 1), if_neg (by omega), if_neg (by omega)] at hAB ⊢
              rw [hv1 c, if_neg (by omega), if_pos rfl] at hAB
              exact le_of_lt hAB
            · rw [hv1 c, if_neg (by omega), if_pos rfl]
          · rw [hv1 c, if_neg (by omega), if_pos rfl]
        have e_pair : c + 1 < v.length →
            getE (fix_pair_min (swap v c l) c) c ≤ getE (fix_pair_min (swap v c l) c) (c + 1) := by
          intro hA'
          unfold fix_pair_min
          rw [if_pos (by omega : c + 1 < (swap v c l).length)]
          split
          · next hAB =>
            have g1 : getE (swap (swap v c l) c (c + 1)) c = getE (swap v c l) (c + 1) := by
              rw [getE_swap (swap v c l) c (c + 1) c (by omega) (by omega),
                if_neg (by omega), if_pos rfl]
            have g2 : getE (swap (swap v c l) c (c + 1)) (c + 1) = getE (swap v c l) c := by
              rw [getE_swap (swap v c l) c (c + 1) (c + 1) (by omega) (by omega), if_pos rfl]
            rw [g1, g2]
            exact le_of_lt hAB
          · next hAB =>
            exact not_lt.mp hAB
        have e_keep : c + 1 < v.length →
            getE v (c + 1) ≤ getE (fix_pair_min (swap v c l) c) (c + 1) := by
          intro hA'
          unfold fix_pair_min
          rw [if_pos (by omega : c + 1 < (swap v c l).length)]
          split
          · next hAB =>
            rw [getE_swap _ _ _ _ (by omega) (by omega), if_pos rfl]
            rw [hv1 (c + 1), if_neg (by omega), if_neg (by omega)] at hAB
            rw [hv1 c, if_neg (by omega), if_pos rfl] at hAB
            rw [hv1 c, if_neg (by omega), if_pos rfl]
            exact le_of_lt hAB
          · rw [hv1 (c + 1), if_neg (by omega), if_neg (by omega)]
        have e_high : c + 1 < v.length →
            getE (fix_pair_min (swap v c l) c) (c + 1) ≤ getE v (l + 1) := by
          intro hA'
          unfold fix_pair_min
          rw [if_pos (by omega : c + 1 < (swap v c l).length)]
          split
          · next hAB =>
            rw [getE_swap _ _ _ _ (by omega) (by omega), if_pos rfl,
              hv1 c, if_neg (by omega), if_pos rfl]
            exact hpair_l
          · next hAB =>
            rw [hv1 (c + 1), if_neg (by omega), if_neg (by omega)]
            have hh := highs (c / 2) (by omega) (by omega)
            have hnhc : nodeHigh v (c / 2) = getE v (c + 1) := by
              unfold nodeHigh
              rw [h2c, if_pos hA']
            rwa [hnhc, hlc] at hh
        -- assemble the new invariant and recurse
        apply ih (v.length - c) (by omega) _ c (by rw [hlen2])
        refine UMinInv.mk ?_ ?_ ?_ ?_ ?_
        · omega
        · -- pairs
          intro j hjlt
          rw [hlen2] at hjlt
          by_cases hcl : 2 * j = l
          · rw [show 2 * j + 1 = l + 1 by omega, hcl, e_l,
              e_other (l + 1) (by omega) (by omega) (by omega)]
            exact (le_of_lt hlt).trans hpair_l
          · by_cases hcc' : 2 * j = c
            · rw [hcc']
              exact e_pair (by omega)
            · rw [e_other (2 * j) hcl hcc' (by omega),
                e_other (2 * j + 1) (by omega) (by omega) (by omega)]
              exact pairs j hjlt
        · -- highs
          intro j hj1 hjlt
          rw [hlen2] at hjlt
          have hLj : left (j - 1) = 2 * ((j - 1) / 2) := rfl
          by_cases hcl : 2 * j = l
          · have hj' : j = l / 2 := by omega
            have hLpl : left (j - 1) = parent_left l := by
              rw [hj']
              exact left_node l (by omega) leven
            have hnh2 : nodeHigh (fix_pair_min (swap v c l) c) j = getE v (l + 1) := by
              unfold nodeHigh
              rw [hlen2, if_pos (by omega), show 2 * j + 1 = l + 1 by omega]
              exact e_other (l + 1) (by omega) (by omega) (by omega)
            rw [hnh2, hLpl, e_other _ (by omega) (by omega) (by omega)]
            have hh := highs (l / 2) (by omega) (by omega)
            have hnhl : nodeHigh v (l / 2) = getE v (l + 1) := by
              unfold nodeHigh
              rw [h2l, if_pos (by omega)]
            rw [hnhl, ← hj', hLpl] at hh
            exact hh
          · by_cases hcc' : 2 * j = c
            · have hj' : j = c / 2 := by omega
              have hLc : left (j - 1) = l := by rw [hj']; exact hlc
              rw [hLc, e_other (l + 1) (by omega) (by omega) (by omega)]
              have hnh2 : nodeHigh (fix_pair_min (swap v c l) c) j =
                  if c + 1 < v.length then getE (fix_pair_min (swap v c l) c) (c + 1)
                  else getE (fix_pair_min (swap v c l) c) c := by
                unfold nodeHigh
                rw [hlen2, hcc']
              rw [hnh2]
              split
              · next hA' => exact e_high hA'
              · exact e_ch_up.trans hpair_l
            · by_cases hc3 : left (j - 1) = c
              · have hnh2 : nodeHigh (fix_pair_min (swap v c l) c) j = nodeHigh v j := by
                  unfold nodeHigh
                  rw [hlen2]
                  split
                  · exact e_other (2 * j + 1) (by omega) (by omega) (by omega)
                  · exact e_other (2 * j) (by omega) (by omega) (by omega)
                rw [hnh2, hc3]
                have hh := highs j hj1 hjlt
                rw [hc3] at hh
                exact hh.trans (e_keep (by omega))
              · have hnh2 : nodeHigh (fix_pair_min (swap v c l) c) j = nodeHigh v j := by
                  unfold nodeHigh
                  rw [hlen2]
                  split
                  · exact e_other (2 * j + 1) (by omega) (by omega) (by omega)
                  · exact e_other (2 * j) (by omega) (by omega) (by omega)
                rw [hnh2, e_other (left (j - 1) + 1) (by omega) (by omega) (by omega)]
                exact highs j hj1 hjlt
        · -- lows
          intro j hj1 hjlt hjc
          rw [hlen2] at hjlt
          have hLj : left (j - 1) = 2 * ((j - 1) / 2) := rfl
          by_cases hcl : 2 * j = l
          · have hj' : j = l / 2 := by omega
            have hLpl : left (j - 1) = parent_left l := by
              rw [hj']
              exact left_node l (by omega) leven
            rw [hcl, e_l, hLpl, e_other _ (by omega) (by omega) (by omega)]
            have hw := wmin (by omega) (c / 2) (by omega) (by omega) hlc
            rwa [h2c] at hw
          · by_cases hcc' : 2 * j = c
            · have hj' : j = c / 2 := by omega
              have hLc : left (j - 1) = l := by rw [hj']; exact hlc
              rw [hLc, e_l, hcc']
              exact e_ch_low
            · by_cases hc2 : left (j - 1) = l
              · rw [hc2, e_l, e_other (2 * j) hcl hcc' (by omega)]
                rcases hcc with hc1 | hc1
                · rcases show 2 * j = l * 2 + 4 from by omega with h4
                  rw [h4]
                  exact hsel.2 (by omega)
                · rcases show 2 * j = l * 2 + 2 from by omega with h4
                  rw [h4]
                  exact hsel.1 (by omega)
              · rw [e_other (left (j - 1)) hc2 hjc (by omega),
                  e_other (2 * j) hcl hcc' (by omega)]
                exact lows j hj1 hjlt hc2
        · -- wmin
          intro hq j hj1 hjlt hjc
          rw [hlen2] at hjlt
          have hLj : left (j - 1) = 2 * ((j - 1) / 2) := rfl
          rw [hpc, e_l, e_other (2 * j) (by omega) (by omega) (by omega)]
          have hl' := lows j hj1 hjlt (by omega)
          rw [hjc] at hl'
          exact hl'
      · next hge =>
        -- the chosen child is not smaller: already valid
        have hcc := min_child_cases v l
        have hsel := min_child_sel v l
        have hvl : getE v l ≤ getE v (min_child v l) := not_lt.mp hge
        constructor
        · exact pairs
        · intro j hj1 hjlt
          refine ⟨?_, highs j hj1 hjlt⟩
          by_cases hc : left (j - 1) = l
          · have hLj : left (j - 1) = 2 * ((j - 1) / 2) := rfl
            rw [hc]
            have h2j : 2 * j = l * 2 + 2 ∨ 2 * j = l * 2 + 4 := by omega
            rcases h2j with h2j | h2j
            · rw [h2j]
              exact hvl.trans (hsel.1 (by omega))
            · rw [h2j]
              exact hvl.trans (hsel.2 (by omega))
          · exact lows j hj1 hjlt hc

theorem update_min_valid (v : List α) (hpre : MinPre v) : Valid (update_min v) := by
  unfold update_min
  apply update_min_loop_valid v.length v 0 (by omega)
  refine UMinInv.mk ?_ ?_ ?_ ?_ ?_
  · rfl
  · intro j hjlt
    rcases Nat.eq_zero_or_pos j with rfl | hj1
    · simpa using hpre.root01 (by omega)
    · exact hpre.pairs j hj1 hjlt
  · exact hpre.highs
  · intro j hj1 hjlt hjc
    have hLj : left (j - 1) = 2 * ((j - 1) / 2) := rfl
    exact hpre.lows j (by omega) hjlt
  · intro hq
    omega

/-! ### The max-side sift-down (`update_max`) -/

/-- Precondition of `update_max` (source lines 126-128) as established by its
callers: the root's max slot was replaced without violating rule (1) at the
root, and — crucially — if the last node is unpaired, its item is still below
the new root max.  The possibly-broken statements are the high-containments of
the root's complete children. -/
structure MaxPre (v : List α) : Prop where
  root01 : 2 ≤ v.length → getE v 0 ≤ getE v 1
  pairs : ∀ j, 1 ≤ j → 2 * j + 1 < v.length → getE v (2 * j) ≤ getE v (2 * j + 1)
  lows : ∀ j, 1 ≤ j → 2 * j < v.length → getE v (left (j - 1)) ≤ getE v (2 * j)
  highs : ∀ j, 3 ≤ j → 2 * j < v.length → nodeHigh v j ≤ getE v (left (j - 1) + 1)
  zlast : v.length % 2 = 1 → 3 ≤ v.length → getE v (v.length - 1) ≤ getE v 1

/-- Loop invariant of `update_max` at current high index `r`: everything holds
except the high-containments of the current node's children; those children
are still bounded above by the current node's parent's high item, and the
unpaired last node (if any) is bounded by the current item. -/
structure UMaxInv (v : List α) (r : Nat) : Prop where
  rodd : r % 2 = 1
  pairs : ∀ j, 2 * j + 1 < v.length → getE v (2 * j) ≤ getE v (2 * j + 1)
  lows : ∀ j, 1 ≤ j → 2 * j < v.length → getE v (left (j - 1)) ≤ getE v (2 * j)
  highs : ∀ j, 1 ≤ j → 2 * j < v.length → left (j - 1) + 1 ≠ r →
    nodeHigh v j ≤ getE v (left (j - 1) + 1)
  wmax : 3 ≤ r → ∀ j, 1 ≤ j → 2 * j < v.length → left (j - 1) + 1 = r →
    nodeHigh v j ≤ getE v (parent_left (r - 1) + 1)
  zlast : v.length % 2 = 1 → 3 ≤ v.length → getE v (v.length - 1) ≤ getE v r

theorem max_child_cases (v : List α) (r : Nat) :
    max_child v r = r * 2 + 1 ∨ max_child v r = r * 2 + 3 := by
  unfold max_child
  split
  · exact Or.inl rfl
  · exact Or.inr rfl

/-- The selected child's high item is the greater of the (existing) children's
high items. -/
theorem max_child_sel (v : List α) (r : Nat) :
    (r * 2 + 1 < v.length → getE v (r * 2 + 1) ≤ getE v (max_child v r)) ∧
    (r * 2 + 3 < v.length → getE v (r * 2 + 3) ≤ getE v (max_child v r)) := by
  unfold max_child
  split
  · next hcond =>
    refine ⟨fun _ => le_refl _, fun h4 => ?_⟩
    rcases hcond with h | h
    · omega
    · exact le_of_lt h
  · next hcond =>
    have hno := not_or.mp hcond
    exact ⟨fun _ => not_lt.mp hno.2, fun _ => le_refl _⟩

theorem update_max_loop_valid : ∀ (fuel : Nat) (v : List α) (r : Nat),
    v.length - r = fuel → UMaxInv v r → Valid (update_max_loop v r) := by
  intro fuel
  induction fuel using Nat.strong_induction_on with
  | _ fuel ih =>
    intro v r hf inv
    obtain ⟨rodd, pairs, lows, highs, wmax, zlast⟩ := inv
    unfold update_max_loop
    split
    · next h1 =>
      -- no complete children: an unpaired child is covered by `zlast`
      constructor
      · exact pairs
      · intro j hj1 hjlt
        refine ⟨lows j hj1 hjlt, ?_⟩
        by_cases hc : left (j - 1) + 1 = r
        · have hLj : left (j - 1) = 2 * ((j - 1) / 2) := rfl
          have hj' : j = r ∧ v.length = 2 * r + 1 := by omega
          have hnhj : nodeHigh v j = getE v (2 * j) := by
            unfold nodeHigh
            rw [if_neg (by omega)]
          rw [hnhj, hc, show 2 * j = v.length - 1 by omega]
          exact zlast (by omega) (by omega)
        · exact highs j hj1 hjlt hc
    · next h1 =>
      split
      · next hlt =>
        -- descend into the chosen child
        have hb := max_child_bounds v r h1
        have hcc := max_child_cases v r
        have hsel := max_child_sel v r
        generalize hch : max_child v r = c at hlt hb hcc hsel ⊢
        obtain ⟨hbl, hbu⟩ := hb
        have hrlt : r < v.length := by omega
        have h2m : 2 * ((r - 1) / 2) = r - 1 := by omega
        have h2cm : 2 * ((c - 1) / 2) = c - 1 := by omega
        have hcodd : c % 2 = 1 := by omega
        have hlc : left ((c - 1) / 2 - 1) = r - 1 := by
          unfold left
          omega
        have hplcm1 : parent_left (c - 1) = r - 1 := by
          unfold parent_left left
          omega
        have hpair_m : getE v (r - 1) ≤ getE v r := by
          have hp := pairs ((r - 1) / 2) (by omega)
          rwa [h2m, show r - 1 + 1 = r by omega] at hp
        have hpair_c : getE v (c - 1) ≤ getE v c := by
          have hp := pairs ((c - 1) / 2) (by omega)
          rwa [h2cm, show c - 1 + 1 = c by omega] at hp
        have hv1 : ∀ x, getE (swap v c r) x =
            if x = r then getE v c else if x = c then getE v r else getE v x := fun x =>
          getE_swap v c r x hbu hrlt
        have hlenv1 : (swap v c r).length = v.length := length_swap v c r
        have hlen2 : (fix_pair_max (swap v c r) c).length = v.length := by
          rw [length_fix_pair_max, hlenv1]
        have e_other : ∀ x, x ≠ r → x ≠ c → x ≠ c - 1 →
            getE (fix_pair_max (swap v c r) c) x = getE v x := by
          intro x hx1 hx2 hx3
          unfold fix_pair_max
          split
          · rw [getE_swap (swap v c r) (c - 1) c x (by omega) (by omega), if_neg hx2,
              if_neg hx3, hv1 x, if_neg hx1, if_neg hx2]
          · rw [hv1 x, if_neg hx1, if_neg hx2]
        have e_r : getE (fix_pair_max (swap v c r) c) r = getE v c := by
          unfold fix_pair_max
          split
          · rw [getE_swap (swap v c r) (c - 1) c r (by omega) (by omega),
              if_neg (by omega), if_neg (by omega), hv1 r, if_pos rfl]
          · rw [hv1 r, if_pos rfl]
        have e_c_up : getE (fix_pair_max (swap v c r) c) c ≤ getE v c := by
          unfold fix_pair_max
          split
          · next hAB =>
            rw [getE_swap (swap v c r) (c - 1) c c (by omega) (by omega), if_pos rfl,
              hv1 (c - 1), if_neg (by omega), if_neg (by omega)]
            exact hpair_c
          · rw [hv1 c, if_neg (by omega), if_pos rfl]
            exact le_of_lt hlt
        have e_c_low : getE v r ≤ getE (fix_pair_max (swap v c r) c) c := by
          unfold fix_pair_max
          split
          · next hAB =>
            rw [getE_swap (swap v c r) (c - 1) c c (by omega) (by omega), if_pos rfl,
              hv1 (c - 1), if_neg (by omega), if_neg (by omega)]
            rw [hv1 c, if_neg (by omega), if_pos rfl,
              hv1 (c - 1), if_neg (by omega), if_neg (by omega)] at hAB
            exact le_of_lt hAB
          · rw [hv1 c, if_neg (by omega), if_pos rfl]
        have e_pair : getE (fix_pair_max (swap v c r) c) (c - 1) ≤
            getE (fix_pair_max (swap v c r) c) c := by
          unfold fix_pair_max
          split
          · next hAB =>
            have g1 : getE (swap (swap v c r) (c - 1) c) (c - 1) = getE (swap v c r) c := by
              rw [getE_swap (swap v c r) (c - 1) c (c - 1) (by omega) (by omega),
                if_neg (by omega), if_pos rfl]
            have g2 : getE (swap (swap v c r) (c - 1) c) c = getE (swap v c r) (c - 1) := by
              rw [getE_swap (swap v c r) (c - 1) c c (by omega) (by omega), if_pos rfl]
            rw [g1, g2]
            exact le_of_lt hAB
          · next hAB =>
            exact not_lt.mp hAB
        have e_cm1_low : getE v (r - 1) ≤ getE (fix_pair_max (swap v c r) c) (c - 1) := by
          unfold fix_pair_max
          split
          · next hAB =>
            rw [getE_swap (swap v c r) (c - 1) c (c - 1) (by omega) (by omega),
              if_neg (by omega), if_pos rfl, hv1 c, if_neg (by omega), if_pos rfl]
            exact hpair_m
          · rw [hv1 (c - 1), if_neg (by omega), if_neg (by omega)]
            have hl' := lows ((c - 1) / 2) (by omega) (by omega)
            rwa [hlc, h2cm] at hl'
        have e_cm1_up : getE (fix_pair_max (swap v c r) c) (c - 1) ≤ getE v (c - 1) := by
          unfold fix_pair_max
          split
          · next hAB =>
            rw [getE_swap (swap v c r) (c - 1) c (c - 1) (by omega) (by omega),
              if_neg (by omega), if_pos rfl, hv1 c, if_neg (by omega), if_pos rfl]
            rw [hv1 c, if_neg (by omega), if_pos rfl,
              hv1 (c - 1), if_neg (by omega), if_neg (by omega)] at hAB
            exact le_of_lt hAB
          · rw [hv1 (c - 1), if_neg (by omega), if_neg (by omega)]
        -- assemble the new invariant and recurse
        apply ih (v.length - c) (by omega) _ c (by rw [hlen2])
        refine UMaxInv.mk ?_ ?_ ?_ ?_ ?_ ?_
        · omega
        · -- pairs
          intro j hjlt
          rw [hlen2] at hjlt
          by_cases hcr : 2 * j + 1 = r
          · rw [hcr, show 2 * j = r - 1 by omega, e_r,
              e_other (r - 1) (by omega) (by omega) (by omega)]
            exact hpair_m.trans (le_of_lt hlt)
          · by_cases hcc' : 2 * j + 1 = c
            · rw [hcc', show 2 * j = c - 1 by omega]
              exact e_pair
            · rw [e_other (2 * j) (by omega) (by omega) (by omega),
                e_other (2 * j + 1) hcr hcc' (by omega)]
              exact pairs j hjlt
        · -- lows
          intro j hj1 hjlt
          rw [hlen2] at hjlt
          have hLj : left (j - 1) = 2 * ((j - 1) / 2) := rfl
          by_cases hcm : 2 * j = c - 1
          · have hLr : left (j - 1) = r - 1 := by
              rw [show j = (c - 1) / 2 by omega]
              exact hlc
            rw [hcm, hLr, e_other (r - 1) (by omega) (by omega) (by omega)]
            exact e_cm1_low
          · by_cases hcd : left (j - 1) = c - 1
            · rw [hcd, e_other (2 * j) (by omega) (by omega) hcm]
              have hl' := lows j hj1 hjlt
              rw [hcd] at hl'
              exact e_cm1_up.trans hl'
            · rw [e_other (left (j - 1)) (by omega) (by omega) hcd,
                e_other (2 * j) (by omega) (by omega) hcm]
              exact lows j hj1 hjlt
        · -- highs
          intro j hj1 hjlt hjc
          rw [hlen2] at hjlt
          have hLj : left (j - 1) = 2 * ((j - 1) / 2) := rfl
          by_cases hcm : 2 * j + 1 = r
          · -- the current node's parent: its new high is the moved-up item
            have hr3 : 3 ≤ r := by omega
            have hLpl : left (j - 1) = parent_left (r - 1) := by
              rw [show j = (r - 1) / 2 by omega]
              exact left_node (r - 1) (by omega) (by omega)
            have hnh2 : nodeHigh (fix_pair_max (swap v c r) c) j = getE v c := by
              unfold nodeHigh
              rw [hlen2, if_pos (by omega), show 2 * j + 1 = r by omega]
              exact e_r
            rw [hnh2, hLpl, e_other _ (by omega) (by omega) (by omega)]
            have hw := wmax hr3 ((c - 1) / 2) (by omega) (by omega)
              (by rw [hlc]; omega)
            have hnhc : nodeHigh v ((c - 1) / 2) = getE v c := by
              unfold nodeHigh
              rw [h2cm, if_pos (by omega), show c - 1 + 1 = c by omega]
            rwa [hnhc] at hw
          · by_cases hcc' : 2 * j + 1 = c
            · -- the node descended into
              have hLr : left (j - 1) + 1 = r := by
                rw [show j = (c - 1) / 2 by omega, hlc]
                omega
              have hnh2 : nodeHigh (fix_pair_max (swap v c r) c) j =
                  getE (fix_pair_max (swap v c r) c) c := by
                unfold nodeHigh
                rw [hlen2, if_pos (by omega), hcc']
              rw [hnh2, hLr, e_r]
              exact e_c_up
            · by_cases hc3 : left (j - 1) + 1 = r
              · -- the other child of the current node
                rw [hc3, e_r]
                by_cases hcomp : 2 * j + 1 < v.length
                · have hnh2 : nodeHigh (fix_pair_max (swap v c r) c) j =
                      getE v (2 * j + 1) := by
                    unfold nodeHigh
                    rw [hlen2, if_pos hcomp]
                    exact e_other (2 * j + 1) (by omega) hcc' (by omega)
                  rw [hnh2]
                  rcases show 2 * j + 1 = r * 2 + 1 ∨ 2 * j + 1 = r * 2 + 3 by omega
                    with h4 | h4
                  · rw [h4]
                    exact hsel.1 (by omega)
                  · rw [h4]
                    exact hsel.2 (by omega)
                · have hnh2 : nodeHigh (fix_pair_max (swap v c r) c) j =
                      getE v (2 * j) := by
                    unfold nodeHigh
                    rw [hlen2, if_neg hcomp]
                    exact e_other (2 * j) (by omega) (by omega) (by omega)
                  rw [hnh2, show 2 * j = v.length - 1 by omega]
                  exact (zlast (by omega) (by omega)).trans (le_of_lt hlt)
              · -- untouched node
                have hnh2 : nodeHigh (fix_pair_max (swap v c r) c) j = nodeHigh v j := by
                  unfold nodeHigh
                  rw [hlen2]
                  split
                  · exact e_other (2 * j + 1) (by omega) hcc' (by omega)
                  · exact e_other (2 * j) (by omega) (by omega) (by omega)
                rw [hnh2, e_other (left (j - 1) + 1) (by omega) (by omega) (by omega)]
                exact highs j hj1 hjlt hc3
        · -- wmax
          intro hq j hj1 hjlt hjc
          rw [hlen2] at hjlt
          have hLj : left (j - 1) = 2 * ((j - 1) / 2) := rfl
          rw [hplcm1, show r - 1 + 1 = r by omega, e_r]
          by_cases hcomp : 2 * j + 1 < v.length
          · have hnh2 : nodeHigh (fix_pair_max (swap v c r) c) j = getE v (2 * j + 1) := by
              unfold nodeHigh
              rw [hlen2, if_pos hcomp]
              exact e_other (2 * j + 1) (by omega) (by omega) (by omega)
            rw [hnh2]
            have hh := highs j hj1 hjlt (by omega)
            have hnhj : nodeHigh v j = getE v (2 * j + 1) := by
              unfold nodeHigh
              rw [if_pos hcomp]
            rw [hnhj, hjc] at hh
            exact hh
          · have hnh2 : nodeHigh (fix_pair_max (swap v c r) c) j = getE v (2 * j) := by
              unfold nodeHigh
              rw [hlen2, if_neg hcomp]
              exact e_other (2 * j) (by omega) (by omega) (by omega)
            rw [hnh2, show 2 * j = v.length - 1 by omega]
            exact (zlast (by omega) (by omega)).trans (le_of_lt hlt)
        · -- zlast
          intro hodd h3
          rw [hlen2] at hodd h3
          rw [hlen2, e_other (v.length - 1) (by omega) (by omega) (by omega)]
          exact (zlast hodd h3).trans e_c_low
      · next hge =>
        -- the chosen child is not greater: already valid
        have hcc := max_child_cases v r
        have hsel := max_child_sel v r
        have hvr : getE v (max_child v r) ≤ getE v r := not_lt.mp hge
        constructor
        · exact pairs
        · intro j hj1 hjlt
          refine ⟨lows j hj1 hjlt, ?_⟩
          by_cases hc : left (j - 1) + 1 = r
          · have hLj : left (j - 1) = 2 * ((j - 1) / 2) := rfl
            rw [hc]
            by_cases hcomp : 2 * j + 1 < v.length
            · have hnhj : nodeHigh v j = getE v (2 * j + 1) := by
                unfold nodeHigh
                rw [if_pos hcomp]
              rw [hnhj]
              rcases show 2 * j + 1 = r * 2 + 1 ∨ 2 * j + 1 = r * 2 + 3 by omega
                with h4 | h4
              · rw [h4]
                exact (hsel.1 (by omega)).trans hvr
              · rw [h4]
                exact (hsel.2 (by omega)).trans hvr
            · have hnhj : nodeHigh v j = getE v (2 * j) := by
                unfold nodeHigh
                rw [if_neg hcomp]
              rw [hnhj, show 2 * j = v.length - 1 by omega]
              exact zlast (by omega) (by omega)
          · exact highs j hj1 hjlt hc

theorem update_max_valid (v : List α) (hpre : MaxPre v) : Valid (update_max v) := by
  unfold update_max
  apply update_max_loop_valid (v.length - 1) v 1 rfl
  refine UMaxInv.mk ?_ ?_ ?_ ?_ ?_ ?_
  · rfl
  · intro j hjlt
    rcases Nat.eq_zero_or_pos j with rfl | hj1
    · simpa using hpre.root01 (by omega)
    · exact hpre.pairs j hj1 hjlt
  · exact hpre.lows
  · intro j hj1 hjlt hjc
    have hLj : left (j - 1) = 2 * ((j - 1) / 2) := rfl
    exact hpre.highs j (by omega) hjlt
  · intro hq
    omega
  · exact hpre.zlast

/-! ### `swap_remove` and validity of `pop_min` / `pop_max` -/

theorem getE_dropLast (v : List α) (x : Nat) (h : x < v.length - 1) :
    getE v.dropLast x = getE v x := by
  unfold getE
  rw [List.dropLast_eq_take, List.getD_eq_getElem?_getD, List.getD_eq_getElem?_getD,
    List.getElem?_take_of_lt h]

theorem length_swap_remove (v : List α) (i : Nat) :
    (swap_remove v i).length = v.length - 1 := by
  simp [swap_remove]

theorem getE_swap_remove (v : List α) (i x : Nat) (h : x < v.length - 1) :
    getE (swap_remove v i) x =
      if x = i then getE v (v.length - 1) else getE v x := by
  unfold swap_remove
  rw [getE_dropLast _ _ (by simpa using h)]
  by_cases hx : x = i
  · subst hx
    rw [if_pos rfl]
    exact getE_set_eq v x _ (by omega)
  · rw [if_neg hx]
    exact getE_set_ne v i x _ fun hh => hx hh.symm

/-- Setting the last slot and then dropping it, with the old item re-attached
in front, is a permutation of the original vector. -/
theorem set_last_perm : ∀ (u : List α) (y : α), u ≠ [] →
    (u.set (u.length - 1) y).Perm (y :: u.dropLast) := by
  intro u
  induction u with
  | nil => intro y h; exact absurd rfl h
  | cons a t ih =>
    intro y _
    cases t with
    | nil => exact List.Perm.refl _
    | cons b t' =>
      have hIH := ih y (by simp)
      have hlen : (a :: b :: t').length - 1 = (b :: t').length - 1 + 1 := by
        simp
      rw [hlen, show (a :: b :: t').dropLast = a :: (b :: t').dropLast from rfl]
      exact (hIH.cons a).trans (List.Perm.swap y a _)

theorem swap_remove_perm (v : List α) (i : Nat) (h : i < v.length) :
    (getE v i :: swap_remove v i).Perm v := by
  have hne : v.set i (getE v (v.length - 1)) ≠ [] := by
    intro hc
    have hl : (v.set i (getE v (v.length - 1))).length = v.length := by simp
    rw [hc] at hl
    simp at hl
    omega
  have h1 := set_last_perm (v.set i (getE v (v.length - 1))) (getE v i) hne
  rw [List.length_set] at h1
  have h2 : (swap v i (v.length - 1)).Perm v := swap_perm v i (v.length - 1) h (by omega)
  exact h1.symm.trans h2

/-- `pop_min` on a heap of size ≥ 3 leaves `update_min`'s precondition. -/
theorem minPre_of_pop (v : List α) (hv : Valid v) (h3 : 3 ≤ v.length) :
    MinPre (swap_remove v 0) := by
  have hlen : (swap_remove v 0).length = v.length - 1 := length_swap_remove v 0
  refine MinPre.mk ?_ ?_ ?_ ?_
  · intro h2
    rw [hlen] at h2
    rw [getE_swap_remove v 0 0 (by omega), if_pos rfl,
      getE_swap_remove v 0 1 (by omega), if_neg (by omega)]
    exact valid_max v hv (by omega) (v.length - 1) (by omega)
  · intro j hj1 hjlt
    rw [hlen] at hjlt
    rw [getE_swap_remove v 0 (2 * j) (by omega), if_neg (by omega),
      getE_swap_remove v 0 (2 * j + 1) (by omega), if_neg (by omega)]
    exact hv.1 j (by omega)
  · intro j hj1 hjlt
    rw [hlen] at hjlt
    have hLj : left (j - 1) = 2 * ((j - 1) / 2) := rfl
    rw [getE_swap_remove v 0 (left (j - 1) + 1) (by omega), if_neg (by omega)]
    by_cases hcomp : 2 * j + 1 < v.length - 1
    · have hnh : nodeHigh (swap_remove v 0) j = getE v (2 * j + 1) := by
        unfold nodeHigh
        rw [hlen, if_pos hcomp, getE_swap_remove v 0 (2 * j + 1) (by omega),
          if_neg (by omega)]
      rw [hnh]
      have hh := (hv.2 j hj1 (by omega)).2
      have hnhv : nodeHigh v j = getE v (2 * j + 1) := by
        unfold nodeHigh
        rw [if_pos (by omega)]
      rwa [hnhv] at hh
    · have hnh : nodeHigh (swap_remove v 0) j = getE v (2 * j) := by
        unfold nodeHigh
        rw [hlen, if_neg hcomp, getE_swap_remove v 0 (2 * j) (by omega), if_neg (by omega)]
      rw [hnh]
      have hh := (hv.2 j hj1 (by omega)).2
      have hp := low_le_nodeHigh v hv.1 j (by omega)
      exact (hp.trans hh)
  · intro j hj3 hjlt
    rw [hlen] at hjlt
    have hLj : left (j - 1) = 2 * ((j - 1) / 2) := rfl
    rw [getE_swap_remove v 0 (left (j - 1)) (by omega), if_neg (by omega),
      getE_swap_remove v 0 (2 * j) (by omega), if_neg (by omega)]
    exact (hv.2 j (by omega) (by omega)).1

theorem pop_min_valid (v : List α) (hv : Valid v) : Valid (pop_min v).2 := by
  unfold pop_min
  split
  · exact hv
  · split
    · next h0 h2 =>
      apply valid_of_short
      rw [length_swap_remove]
      omega
    · next h0 h2 =>
      exact update_min_valid _ (minPre_of_pop v hv (by omega))

/-- `pop_max` on a heap of size ≥ 3 leaves `update_max`'s precondition,
including the bound on the newly-unpaired last node. -/
theorem maxPre_of_pop (v : List α) (hv : Valid v) (h3 : 3 ≤ v.length) :
    MaxPre (swap_remove v 1) := by
  have hlen : (swap_remove v 1).length = v.length - 1 := length_swap_remove v 1
  refine MaxPre.mk ?_ ?_ ?_ ?_ ?_
  · intro h2
    rw [hlen] at h2
    rw [getE_swap_remove v 1 0 (by omega), if_neg (by omega),
      getE_swap_remove v 1 1 (by omega), if_pos rfl]
    exact valid_min v hv (v.length - 1) (by omega)
  · intro j hj1 hjlt
    rw [hlen] at hjlt
    rw [getE_swap_remove v 1 (2 * j) (by omega), if_neg (by omega),
      getE_swap_remove v 1 (2 * j + 1) (by omega), if_neg (by omega)]
    exact hv.1 j (by omega)
  · intro j hj1 hjlt
    rw [hlen] at hjlt
    have hLj : left (j - 1) = 2 * ((j - 1) / 2) := rfl
    rw [getE_swap_remove v 1 (left (j - 1)) (by omega), if_neg (by omega),
      getE_swap_remove v 1 (2 * j) (by omega), if_neg (by omega)]
    exact (hv.2 j hj1 (by omega)).1
  · intro j hj3 hjlt
    rw [hlen] at hjlt
    have hLj : left (j - 1) = 2 * ((j - 1) / 2) := rfl
    rw [getE_swap_remove v 1 (left (j - 1) + 1) (by omega), if_neg (by omega)]
    by_cases hcomp : 2 * j + 1 < v.length - 1
    · have hnh : nodeHigh (swap_remove v 1) j = getE v (2 * j + 1) := by
        unfold nodeHigh
        rw [hlen, if_pos hcomp, getE_swap_remove v 1 (2 * j + 1) (by omega),
          if_neg (by omega)]
      rw [hnh]
      have hh := (hv.2 j (by omega) (by omega)).2
      have hnhv : nodeHigh v j = getE v (2 * j + 1) := by
        unfold nodeHigh
        rw [if_pos (by omega)]
      rwa [hnhv] at hh
    · have hnh : nodeHigh (swap_remove v 1) j = getE v (2 * j) := by
        unfold nodeHigh
        rw [hlen, if_neg hcomp, getE_swap_remove v 1 (2 * j) (by omega), if_neg (by omega)]
      rw [hnh]
      have hh := (hv.2 j (by omega) (by omega)).2
      have hp := low_le_nodeHigh v hv.1 j (by omega)
      exact hp.trans hh
  · intro hodd hge3
    rw [hlen] at hodd hge3
    rw [hlen, getE_swap_remove v 1 (v.length - 1 - 1) (by omega), if_neg (by omega),
      getE_swap_remove v 1 1 (by omega), if_pos rfl]
    -- the removed last slot was the pair partner of the new last slot
    have hp := hv.1 ((v.length - 2) / 2) (by omega)
    rw [show 2 * ((v.length - 2) / 2) = v.length - 2 by omega,
      show v.length - 2 + 1 = v.length - 1 by omega] at hp
    rw [show v.length - 1 - 1 = v.length - 2 by omega]
    exact hp

theorem pop_max_valid (v : List α) (hv : Valid v) : Valid (pop_max v).2 := by
  unfold pop_max
  split
  · next h2 =>
    apply valid_of_short
    rw [List.length_dropLast]
    omega
  · next h2 =>
    exact update_max_valid _ (maxPre_of_pop v hv (by omega))

/-! ### The operations permute the contents -/

theorem fix_pair_min_perm (u : List α) (ch : Nat) (h : ch < u.length) :
    (fix_pair_min u ch).Perm u := by
  unfold fix_pair_min
  split
  · next h2 =>
    split
    · exact swap_perm u ch (ch + 1) h h2
    · exact List.Perm.refl u
  · exact List.Perm.refl u

theorem fix_pair_max_perm (u : List α) (ch : Nat) (h : ch < u.length) :
    (fix_pair_max u ch).Perm u := by
  unfold fix_pair_max
  split
  · exact swap_perm u (ch - 1) ch (by omega) h
  · exact List.Perm.refl u

theorem update_min_loop_perm : ∀ (fuel : Nat) (v : List α) (l : Nat),
    v.length - l = fuel → (update_min_loop v l).Perm v := by
  intro fuel
  induction fuel using Nat.strong_induction_on with
  | _ fuel ih =>
    intro v l hf
    unfold update_min_loop
    split
    · exact List.Perm.refl v
    · next h1 =>
      split
      · next hlt =>
        have hb := min_child_bounds v l h1
        have hp1 : (swap v (min_child v l) l).Perm v :=
          swap_perm v (min_child v l) l hb.2 (by omega)
        have hp2 : (fix_pair_min (swap v (min_child v l) l) (min_child v l)).Perm
            (swap v (min_child v l) l) :=
          fix_pair_min_perm _ _ (by rw [length_swap]; omega)
        refine List.Perm.trans (ih (v.length - min_child v l) (by omega) _ _ ?_)
          (hp2.trans hp1)
        rw [length_fix_pair_min, length_swap]
      · exact List.Perm.refl v

theorem update_min_perm (v : List α) : (update_min v).Perm v :=
  update_min_loop_perm v.length v 0 (by omega)

theorem update_max_loop_perm : ∀ (fuel : Nat) (v : List α) (r : Nat),
    v.length - r = fuel → (update_max_loop v r).Perm v := by
  intro fuel
  induction fuel using Nat.strong_induction_on with
  | _ fuel ih =>
    intro v r hf
    unfold update_max_loop
    split
    · exact List.Perm.refl v
    · next h1 =>
      split
      · next hlt =>
        have hb := max_child_bounds v r h1
        have hp1 : (swap v (max_child v r) r).Perm v :=
          swap_perm v (max_child v r) r hb.2 (by omega)
        have hp2 : (fix_pair_max (swap v (max_child v r) r) (max_child v r)).Perm
            (swap v (max_child v r) r) :=
          fix_pair_max_perm _ _ (by rw [length_swap]; omega)
        refine List.Perm.trans (ih (v.length - max_child v r) (by omega) _ _ ?_)
          (hp2.trans hp1)
        rw [length_fix_pair_max, length_swap]
      · exact List.Perm.refl v

theorem update_max_perm (v : List α) : (update_max v).Perm v :=
  update_max_loop_perm (v.length - 1) v 1 rfl

theorem siftUp_perm : ∀ (a : Nat) (v : List α) (b : Nat), a ≤ b → b < v.length →
    (siftUp v a b).Perm v := by
  intro a
  induction a using Nat.strong_induction_on with
  | _ a ih =>
    intro v b hab hb
    unfold siftUp
    split
    · exact List.Perm.refl v
    · next hroot =>
      have h2 : 2 ≤ a := by
        simp only [is_root, decide_eq_true_eq] at hroot
        omega
      have hpl := parent_left_lt a h2
      split
      · exact (ih (parent_left a) hpl _ _ (by omega) (by rw [length_swap]; omega)).trans
          (swap_perm v (parent_left a) a (by omega) (by omega))
      · split
        · exact (ih (parent_left a) hpl _ _ (by omega) (by rw [length_swap]; omega)).trans
            (swap_perm v (parent_left a + 1) b (by omega) hb)
        · exact List.Perm.refl v

theorem interval_heap_push_nil : interval_heap_push ([] : List α) = [] := by
  unfold interval_heap_push
  rw [show ([] : List α).length - 1 = 0 from rfl, show left 0 = 0 from rfl,
    if_neg (lt_irrefl _)]
  unfold siftUp
  rfl

theorem interval_heap_push_perm (v : List α) : (interval_heap_push v).Perm v := by
  rcases Nat.eq_zero_or_pos v.length with h0 | h0
  · rw [List.length_eq_zero.mp h0, interval_heap_push_nil]
  · have hL : left (v.length - 1) ≤ v.length - 1 := by unfold left; omega
    unfold interval_heap_push
    split
    · exact (siftUp_perm _ _ _ hL (by rw [length_swap]; omega)).trans
        (swap_perm v (left (v.length - 1)) (v.length - 1) (by omega) (by omega))
    · exact siftUp_perm _ _ _ hL (by omega)

theorem push_perm (v : List α) (x : α) : (push v x).Perm (x :: v) := by
  unfold push
  exact (interval_heap_push_perm (v ++ [x])).trans (List.perm_append_singleton x v)

theorem from_vec_perm (l : List α) : (from_vec_and_comparator l).Perm l := by
  rw [from_vec_eq_foldl]
  induction l using List.reverseRecOn with
  | nil => exact List.Perm.refl _
  | append_singleton l x ihl =>
    rw [List.foldl_append, List.foldl_cons, List.foldl_nil]
    exact (push_perm _ x).trans ((ihl.cons x).trans (List.perm_append_singleton x l).symm)

/-! ### `pop_min` / `pop_max` behaviour -/

theorem pop_min_eq_none (v : List α) (h : v.length = 0) : pop_min v = (none, v) := by
  unfold pop_min
  rw [if_pos h]

theorem pop_min_fst (v : List α) (h1 : 1 ≤ v.length) :
    (pop_min v).1 = some (getE v 0) := by
  unfold pop_min
  rw [if_neg (by omega)]
  split
  · rfl
  · rfl

theorem pop_min_perm (v : List α) (h1 : 1 ≤ v.length) :
    (getE v 0 :: (pop_min v).2).Perm v := by
  unfold pop_min
  rw [if_neg (by omega)]
  split
  · exact swap_remove_perm v 0 (by omega)
  · exact ((update_min_perm _).cons _).trans (swap_remove_perm v 0 (by omega))

theorem pop_min_snd_length (v : List α) (h1 : 1 ≤ v.length) :
    (pop_min v).2.length = v.length - 1 := by
  unfold pop_min
  rw [if_neg (by omega)]
  split
  · rw [length_swap_remove]
  · show (update_min (swap_remove v 0)).length = v.length - 1
    rw [(update_min_perm _).length_eq, length_swap_remove]

theorem getLast?_eq_getE (v : List α) (h1 : 1 ≤ v.length) :
    v.getLast? = some (getE v (v.length - 1)) := by
  have hne : v ≠ [] := by
    intro hc
    rw [hc] at h1
    simp at h1
  rw [List.getLast?_eq_getLast v hne, List.getLast_eq_getElem,
    getE_eq_getElem v (v.length - 1) (by omega)]

theorem cons_dropLast_perm (v : List α) (h1 : 1 ≤ v.length) :
    (getE v (v.length - 1) :: v.dropLast).Perm v := by
  have hne : v ≠ [] := by
    intro hc
    rw [hc] at h1
    simp at h1
  have hsplit : v.dropLast ++ [v.getLast hne] = v := List.dropLast_concat_getLast hne
  have hlast : v.getLast hne = getE v (v.length - 1) := by
    rw [List.getLast_eq_getElem, getE_eq_getElem v (v.length - 1) (by omega)]
  calc (getE v (v.length - 1) :: v.dropLast).Perm (v.dropLast ++ [getE v (v.length - 1)]) :=
      (List.perm_append_singleton _ _).symm
    _ = v := by rw [← hlast, hsplit]

theorem pop_max_eq_none (v : List α) (h : v.length = 0) : pop_max v = (none, v) := by
  rw [List.length_eq_zero.mp h]
  unfold pop_max
  rw [if_pos (by simp)]
  rfl

theorem pop_max_snd_length (v : List α) (h1 : 1 ≤ v.length) :
    (pop_max v).2.length = v.length - 1 := by
  unfold pop_max
  split
  · rw [List.length_dropLast]
  · show (update_max (swap_remove v 1)).length = v.length - 1
    rw [(update_max_perm _).length_eq, length_swap_remove]

/-- The item removed by `pop_max` exists, is an upper bound of the heap's
contents, and together with the remaining items permutes the original. -/
theorem pop_max_spec (v : List α) (h1 : 1 ≤ v.length) (hv : Valid v) :
    ∃ x, (pop_max v).1 = some x ∧ (x :: (pop_max v).2).Perm v ∧
      ∀ i, i < v.length → getE v i ≤ x := by
  unfold pop_max
  split
  · next h2 =>
    refine ⟨getE v (v.length - 1), getLast?_eq_getE v h1, cons_dropLast_perm v h1, ?_⟩
    intro i hi
    rcases Nat.lt_or_ge v.length 2 with hl | hl
    · have : i = 0 ∧ v.length - 1 = 0 := by omega
      rw [this.1, this.2]
    · have := valid_max v hv (by omega) i hi
      rwa [show v.length - 1 = 1 by omega]
  · next h2 =>
    refine ⟨getE v 1, rfl, ?_, ?_⟩
    · exact ((update_max_perm _).cons _).trans (swap_remove_perm v 1 (by omega))
    · intro i hi
      exact valid_max v hv (by omega) i hi

theorem getE_mem (v : List α) (i : Nat) (h : i < v.length) : getE v i ∈ v := by
  have : getE v i = v[i] := by
    simp [getE, List.getD_eq_getElem?_getD, List.getElem?_eq_getElem h]
  rw [this]
  exact List.getElem_mem h

theorem mem_getE (v : List α) (a : α) (h : a ∈ v) :
    ∃ i, i < v.length ∧ getE v i = a := by
  rcases List.getElem_of_mem h with ⟨i, hi, hgi⟩
  exact ⟨i, hi, by simp [getE, List.getD_eq_getElem?_getD, List.getElem?_eq_getElem hi, hgi]⟩

/-! ### Draining by repeated `pop_min` / `pop_max` -/

/-- Call `pop_min` repeatedly until it reports `None`, collecting the removed
items in order. -/
def popMinAll (v : List α) : List α :=
  match h : pop_min v with
  | (none, _) => []
  | (some x, v') => x :: popMinAll v'
termination_by v.length
decreasing_by
  have h1 : 1 ≤ v.length := by
    rcases Nat.eq_zero_or_pos v.length with h0 | h0
    · rw [pop_min_eq_none v h0] at h
      simp at h
    · exact h0
  have h2 := pop_min_snd_length v h1
  have h3 : (pop_min v).2 = v' := by rw [h]
  rw [h3] at h2
  omega

/-- Call `pop_max` repeatedly until it reports `None`, collecting the removed
items in order. -/
def popMaxAll (v : List α) : List α :=
  match h : pop_max v with
  | (none, _) => []
  | (some x, v') => x :: popMaxAll v'
termination_by v.length
decreasing_by
  have h1 : 1 ≤ v.length := by
    rcases Nat.eq_zero_or_pos v.length with h0 | h0
    · rw [pop_max_eq_none v h0] at h
      simp at h
    · exact h0
  have h2 := pop_max_snd_length v h1
  have h3 : (pop_max v).2 = v' := by rw [h]
  rw [h3] at h2
  omega

theorem popMinAll_spec : ∀ (n : Nat) (v : List α), v.length = n → Valid v →
    List.Sorted (· ≤ ·) (popMinAll v) ∧ (popMinAll v).Perm v := by
  intro n
  induction n using Nat.strong_induction_on with
  | _ n ih =>
    intro v hn hv
    unfold popMinAll
    split
    · next hsnd heq =>
      have h0 : v.length = 0 := by
        by_contra hc
        have := pop_min_fst v (by omega)
        rw [heq] at this
        simp at this
      rw [List.length_eq_zero.mp h0]
      exact ⟨List.sorted_nil, List.Perm.refl _⟩
    · next x v' heq =>
      have h1 : 1 ≤ v.length := by
        rcases Nat.eq_zero_or_pos v.length with h0 | h0
        · rw [pop_min_eq_none v h0] at heq
          simp at heq
        · exact h0
      have hfst := pop_min_fst v h1
      rw [heq] at hfst
      have hx : x = getE v 0 := by
        simpa using hfst
      have hsnd : (pop_min v).2 = v' := by rw [heq]
      have hvalid' : Valid v' := hsnd ▸ pop_min_valid v hv
      have hperm : (x :: v').Perm v := by
        rw [hx]
        exact hsnd ▸ pop_min_perm v h1
      have hlen' : v'.length = v.length - 1 := by
        rw [← hsnd]
        exact pop_min_snd_length v h1
      obtain ⟨hs, hp⟩ := ih v'.length (by omega) v' rfl hvalid'
      constructor
      · rw [List.sorted_cons]
        refine ⟨?_, hs⟩
        intro b hb
        have hbv : b ∈ v := hperm.subset (List.mem_cons_of_mem x (hp.subset hb))
        obtain ⟨i, hi, rfl⟩ := mem_getE v b hbv
        rw [hx]
        exact valid_min v hv i hi
      · exact (hp.cons x).trans hperm

theorem popMaxAll_spec : ∀ (n : Nat) (v : List α), v.length = n → Valid v →
    List.Sorted (· ≥ ·) (popMaxAll v) ∧ (popMaxAll v).Perm v := by
  intro n
  induction n using Nat.strong_induction_on with
  | _ n ih =>
    intro v hn hv
    unfold popMaxAll
    split
    · next hsnd heq =>
      have h0 : v.length = 0 := by
        by_contra hc
        obtain ⟨y, hy1, _, _⟩ := pop_max_spec v (by omega) hv
        rw [heq] at hy1
        simp at hy1
      rw [List.length_eq_zero.mp h0]
      exact ⟨List.sorted_nil, List.Perm.refl _⟩
    · next x v' heq =>
      have h1 : 1 ≤ v.length := by
        rcases Nat.eq_zero_or_pos v.length with h0 | h0
        · rw [pop_max_eq_none v h0] at heq
          simp at heq
        · exact h0
      obtain ⟨y, hy1, hy2, hy3⟩ := pop_max_spec v h1 hv
      rw [heq] at hy1
      have hx : x = y := by simpa using hy1
      have hsnd : (pop_max v).2 = v' := by rw [heq]
      have hvalid' : Valid v' := hsnd ▸ pop_max_valid v hv
      have hperm : (x :: v').Perm v := by
        rw [hx]
        exact hsnd ▸ hy2
      have hlen' : v'.length = v.length - 1 := by
        rw [← hsnd]
        exact pop_max_snd_length v h1
      obtain ⟨hs, hp⟩ := ih v'.length (by omega) v' rfl hvalid'
      constructor
      · rw [List.sorted_cons]
        refine ⟨?_, hs⟩
        intro b hb
        have hbv : b ∈ v := hperm.subset (List.mem_cons_of_mem x (hp.subset hb))
        obtain ⟨i, hi, rfl⟩ := mem_getE v b hbv
        rw [hx]
        exact hy3 i hi
      · exact (hp.cons x).trans hperm

/-! ### Heapsort: `into_sorted_vec` -/

theorem getE_take (v : List α) (n i : Nat) (h : i < n) : getE (v.take n) i = getE v i := by
  unfold getE
  rw [List.getD_eq_getElem?_getD, List.getD_eq_getElem?_getD, List.getElem?_take_of_lt h]

theorem sorted_of_valid_short (u : List α) (hu : Valid u) (h : u.length ≤ 2) :
    List.Sorted (· ≤ ·) u := by
  rcases u with _ | ⟨a, u⟩
  · exact List.sorted_nil
  rcases u with _ | ⟨b, u⟩
  · exact List.sorted_singleton a
  rcases u with _ | ⟨c, u⟩
  · have hp := hu.1 0 (by simp)
    simp [getE] at hp
    exact List.sorted_cons.mpr
      ⟨fun x hx => by rw [List.mem_singleton] at hx; rw [hx]; exact hp,
        List.sorted_singleton b⟩
  · exfalso
    simp only [List.length_cons] at h
    omega

/-- One round of the `into_sorted_vec` loop: swapping the prefix maximum (at
index 1) with the last prefix slot `h`, then repairing the shortened prefix,
shrinks the heap part by one while growing the sorted tail by one. -/
theorem sort_step (v v' : List α) (h : Nat) (h2 : 2 ≤ h) (hlt : h < v.length)
    (hv' : v' = update_max ((swap v 1 h).take h) ++ (swap v 1 h).drop h)
    (hval : Valid (v.take (h + 1)))
    (hsorted : List.Sorted (· ≤ ·) (v.drop (h + 1)))
    (hcross : ∀ a ∈ v.take (h + 1), ∀ b ∈ v.drop (h + 1), a ≤ b) :
    v'.length = v.length ∧ v'.Perm v ∧ Valid (v'.take (h - 1 + 1)) ∧
      List.Sorted (· ≤ ·) (v'.drop (h - 1 + 1)) ∧
      ∀ a ∈ v'.take (h - 1 + 1), ∀ b ∈ v'.drop (h - 1 + 1), a ≤ b := by
  have h1len : 1 < v.length := by omega
  have hwlen : (swap v 1 h).length = v.length := length_swap v 1 h
  have hwget : ∀ x, getE (swap v 1 h) x =
      if x = h then getE v 1 else if x = 1 then getE v h else getE v x :=
    fun x => getE_swap v 1 h x h1len hlt
  have hplen : (v.take (h + 1)).length = h + 1 := by
    rw [List.length_take]; omega
  have hpget : ∀ i, i < h + 1 → getE (v.take (h + 1)) i = getE v i :=
    fun i hi => getE_take v (h + 1) i hi
  have hulen : ((swap v 1 h).take h).length = h := by
    rw [List.length_take, hwlen]; omega
  have huget : ∀ i, i < h → getE ((swap v 1 h).take h) i = getE (swap v 1 h) i :=
    fun i hi => getE_take _ h i hi
  have hpre : MaxPre ((swap v 1 h).take h) := by
    constructor
    · intro _
      rw [huget 0 (by omega), huget 1 (by omega), hwget 0, hwget 1,
          if_neg (show ¬0 = h by omega), if_neg (show ¬(0 : Nat) = 1 by omega),
          if_neg (show ¬1 = h by omega), if_pos (show (1 : Nat) = 1 from rfl)]
      have hmin := valid_min (v.take (h + 1)) hval h (by omega)
      rwa [hpget 0 (by omega), hpget h (by omega)] at hmin
    · intro j hj1 hj2
      rw [hulen] at hj2
      rw [huget (2 * j) (by omega), huget (2 * j + 1) (by omega), hwget (2 * j),
          hwget (2 * j + 1), if_neg (show ¬2 * j = h by omega),
          if_neg (show ¬2 * j = 1 by omega), if_neg (show ¬2 * j + 1 = h by omega),
          if_neg (show ¬2 * j + 1 = 1 by omega)]
      have hp := hval.1 j (by omega)
      rwa [hpget (2 * j) (by omega), hpget (2 * j + 1) (by omega)] at hp
    · intro j hj1 hj2
      rw [hulen] at hj2
      have hL : left (j - 1) = 2 * ((j - 1) / 2) := rfl
      rw [huget (left (j - 1)) (by rw [hL]; omega), huget (2 * j) (by omega),
          hwget (left (j - 1)), hwget (2 * j),
          if_neg (show ¬left (j - 1) = h by rw [hL]; omega),
          if_neg (show ¬left (j - 1) = 1 by rw [hL]; omega),
          if_neg (show ¬2 * j = h by omega), if_neg (show ¬2 * j = 1 by omega)]
      have hlow := (hval.2 j hj1 (by omega)).1
      rwa [hpget (left (j - 1)) (by rw [hL]; omega), hpget (2 * j) (by omega)] at hlow
    · intro j hj3 hj2
      rw [hulen] at hj2
      have hL : left (j - 1) = 2 * ((j - 1) / 2) := rfl
      have hhigh := (hval.2 j (by omega) (by omega)).2
      have hnh : nodeHigh (v.take (h + 1)) j = getE (v.take (h + 1)) (2 * j + 1) := by
        unfold nodeHigh
        rw [if_pos (by omega)]
      rw [hnh, hpget (2 * j + 1) (by omega),
          hpget (left (j - 1) + 1) (by rw [hL]; omega)] at hhigh
      have hRHS : getE ((swap v 1 h).take h) (left (j - 1) + 1) =
          getE v (left (j - 1) + 1) := by
        rw [huget (left (j - 1) + 1) (by rw [hL]; omega), hwget (left (j - 1) + 1),
            if_neg (show ¬left (j - 1) + 1 = h by rw [hL]; omega),
            if_neg (show ¬left (j - 1) + 1 = 1 by rw [hL]; omega)]
      unfold nodeHigh
      rw [hulen, hRHS]
      by_cases hc : 2 * j + 1 < h
      · rw [if_pos hc, huget (2 * j + 1) (by omega), hwget (2 * j + 1),
            if_neg (show ¬2 * j + 1 = h by omega), if_neg (show ¬2 * j + 1 = 1 by omega)]
        exact hhigh
      · rw [if_neg hc, huget (2 * j) (by omega), hwget (2 * j),
            if_neg (show ¬2 * j = h by omega), if_neg (show ¬2 * j = 1 by omega)]
        have hp := hval.1 j (by omega)
        rw [hpget (2 * j) (by omega), hpget (2 * j + 1) (by omega)] at hp
        exact hp.trans hhigh
    · intro hodd h3
      rw [hulen] at hodd h3
      rw [show ((swap v 1 h).take h).length - 1 = h - 1 by rw [hulen]]
      rw [huget (h - 1) (by omega), huget 1 (by omega), hwget (h - 1), hwget 1,
          if_neg (show ¬h - 1 = h by omega), if_neg (show ¬h - 1 = 1 by omega),
          if_neg (show ¬1 = h by omega), if_pos (show (1 : Nat) = 1 from rfl)]
      have hp := hval.1 ((h - 1) / 2) (by omega)
      rw [hpget (2 * ((h - 1) / 2)) (by omega),
          hpget (2 * ((h - 1) / 2) + 1) (by omega)] at hp
      rw [show 2 * ((h - 1) / 2) = h - 1 by omega, show h - 1 + 1 = h by omega] at hp
      exact hp
  have hvalid' : Valid (update_max ((swap v 1 h).take h)) := update_max_valid _ hpre
  have hulen2 : (update_max ((swap v 1 h).take h)).length = h := by
    rw [(update_max_perm ((swap v 1 h).take h)).length_eq, hulen]
  have hdrop2 : (swap v 1 h).drop (h + 1) = v.drop (h + 1) := by
    unfold swap
    rw [List.drop_set_of_lt _ _ (show h < h + 1 by omega),
        List.drop_set_of_lt _ _ (show 1 < h + 1 by omega)]
  have hdropw : (swap v 1 h).drop h = getE v 1 :: v.drop (h + 1) := by
    rw [List.drop_eq_getElem_cons (show h < (swap v 1 h).length by omega), hdrop2]
    congr 1
    rw [← getE_eq_getElem (swap v 1 h) h (by omega), hwget h, if_pos rfl]
  have hmem1 : getE v 1 ∈ v.take (h + 1) := by
    rw [← hpget 1 (by omega)]
    exact getE_mem _ 1 (by omega)
  subst hv'
  refine ⟨?_, ?_, ?_, ?_, ?_⟩
  · rw [List.length_append, hulen2, List.length_drop, hwlen]
    omega
  · have h1 := (update_max_perm ((swap v 1 h).take h)).append_right ((swap v 1 h).drop h)
    rw [List.take_append_drop] at h1
    exact h1.trans (swap_perm v 1 h h1len hlt)
  · rw [show h - 1 + 1 = h by omega, List.take_left' hulen2]
    exact hvalid'
  · rw [show h - 1 + 1 = h by omega, List.drop_left' hulen2, hdropw]
    exact List.sorted_cons.mpr ⟨fun b hb => hcross (getE v 1) hmem1 b hb, hsorted⟩
  · intro a ha b hb
    rw [show h - 1 + 1 = h by omega, List.take_left' hulen2] at ha
    rw [show h - 1 + 1 = h by omega, List.drop_left' hulen2, hdropw] at hb
    have hau : a ∈ (swap v 1 h).take h := (update_max_perm _).subset ha
    obtain ⟨i, hi, hgi⟩ := mem_getE _ a hau
    rw [hulen] at hi
    rw [huget i hi, hwget i] at hgi
    have hale : a ≤ getE v 1 := by
      by_cases hi1 : i = 1
      · rw [if_neg (show ¬i = h by omega), if_pos hi1] at hgi
        have hmx := valid_max (v.take (h + 1)) hval (by omega) h (by omega)
        rw [hpget h (by omega), hpget 1 (by omega)] at hmx
        rw [← hgi]
        exact hmx
      · rw [if_neg (show ¬i = h by omega), if_neg hi1] at hgi
        have hmx := valid_max (v.take (h + 1)) hval (by omega) i (by omega)
        rw [hpget i (by omega), hpget 1 (by omega)] at hmx
        rw [← hgi]
        exact hmx
    rcases List.mem_cons.mp hb with rfl | hb2
    · exact hale
    · exact hale.trans (hcross (getE v 1) hmem1 b hb2)

theorem sort_loop_spec : ∀ (h : Nat) (v : List α), h < v.length →
    Valid (v.take (h + 1)) →
    List.Sorted (· ≤ ·) (v.drop (h + 1)) →
    (∀ a ∈ v.take (h + 1), ∀ b ∈ v.drop (h + 1), a ≤ b) →
    List.Sorted (· ≤ ·) (sort_loop v h) ∧ (sort_loop v h).Perm v := by
  intro h
  induction h using Nat.strong_induction_on with
  | _ h ih =>
    intro v hlt hval hsorted hcross
    by_cases hb : h < 2
    · unfold sort_loop
      rw [if_pos hb]
      refine ⟨?_, List.Perm.refl v⟩
      rw [← List.take_append_drop (h + 1) v]
      exact List.pairwise_append.mpr
        ⟨sorted_of_valid_short _ hval (by rw [List.length_take]; omega), hsorted, hcross⟩
    · obtain ⟨hlen2, hperm2, hval2, hsort2, hcross2⟩ :=
        sort_step v (update_max ((swap v 1 h).take h) ++ (swap v 1 h).drop h) h
          (by omega) hlt rfl hval hsorted hcross
      obtain ⟨hs, hp⟩ := ih (h - 1) (by omega)
        (update_max ((swap v 1 h).take h) ++ (swap v 1 h).drop h)
        (by omega) hval2 hsort2 hcross2
      constructor
      · unfold sort_loop
        rw [if_neg hb]
        exact hs
      · unfold sort_loop
        rw [if_neg hb]
        exact hp.trans hperm2

theorem into_sorted_vec_spec (v : List α) (hv : Valid v) :
    List.Sorted (· ≤ ·) (into_sorted_vec v) ∧ (into_sorted_vec v).Perm v := by
  unfold into_sorted_vec
  rcases Nat.eq_zero_or_pos v.length with h0 | h0
  · have hnil : v = [] := List.length_eq_zero.mp h0
    subst hnil
    unfold sort_loop
    rw [if_pos (by simp)]
    exact ⟨List.sorted_nil, List.Perm.refl _⟩
  · apply sort_loop_spec (v.length - 1) v (by omega)
    · rw [show v.length - 1 + 1 = v.length by omega, List.take_length]
      exact hv
    · rw [show v.length - 1 + 1 = v.length by omega, List.drop_length]
      exact List.sorted_nil
    · intro a _ b hb
      rw [show v.length - 1 + 1 = v.length by omega, List.drop_length] at hb
      exact absurd hb (List.not_mem_nil b)

/-! ### Scoped mutable handles (`MutPeek`) -/

/-- Source lines 548-553: the tag carried by a `MutPeek` handle. -/
inductive PeekType where
  | Min : PeekType
  | Max : PeekType
  | Sifted : PeekType
deriving DecidableEq

/-- Source lines 263-272: `min_mut` hands out a handle (modeled by its tag) on
any non-empty heap and `None` on an empty one. -/
def min_mut (v : List α) : Option PeekType :=
  match v.length with
  | 0 => none
  | _ + 1 => some PeekType.Min

/-- Source lines 289-298: `max_mut`. -/
def max_mut (v : List α) : Option PeekType :=
  match v.length with
  | 0 => none
  | _ + 1 => some PeekType.Max

/-- Source lines 587-599: writing through the handle (`*peek = item` goes
through `deref_mut`): a `Min` handle writes slot 0; a `Max` handle writes
slot 1, or slot 0 when the heap holds exactly one item.  The `Sifted` arm is
unreachable in the source, so the model leaves the vector unchanged there. -/
def peek_write (v : List α) (t : PeekType) (item : α) : List α :=
  match t with
  | PeekType.Min => v.set 0 item
  | PeekType.Max =>
    match v.length with
    | 0 => v
    | 1 => v.set 0 item
    | _ + 2 => v.set 1 item
  | PeekType.Sifted => v

/-- Source lines 561-574: `MutPeek::drop`.  The root-pair check reads
`data[0]` and `data[1]` unconditionally; this total model reads them through
`getE` (out-of-range reads yield `default`); the checked variant below models
the panic instead. -/
def mutpeek_drop (v : List α) (t : PeekType) : List α :=
  let v1 := if ¬ getE v 0 ≤ getE v 1 then swap v 0 1 else v
  match t with
  | PeekType.Min => update_min v1
  | PeekType.Max => update_max v1
  | PeekType.Sifted => v1

/-- Source lines 561-574: `MutPeek::drop` with the unconditional `data[0]` /
`data[1]` reads made explicit: `none` models an out-of-bounds panic. -/
def mutpeek_drop_checked (v : List α) (t : PeekType) : Option (List α) :=
  (v[0]?).bind fun a => (v[1]?).bind fun b =>
    let v1 := if ¬ a ≤ b then swap v 0 1 else v
    some (match t with
      | PeekType.Min => update_min v1
      | PeekType.Max => update_max v1
      | PeekType.Sifted => v1)

/-! ### The heap with its allocation capacity -/

/-- A heap as the library stores it: the backing vector together with its
allocated capacity.  `pop_min` and `pop_max` only `swap_remove`/`pop` from the
vector and never reallocate, so the capacity is carried through unchanged. -/
structure Heap (α : Type _) where
  data : List α
  cap : Nat

/-- Source lines 344-357: `pop_min` acting on the full heap state. -/
def pop_min_heap (h : Heap α) : Option α × Heap α :=
  ((pop_min h.data).1, ⟨(pop_min h.data).2, h.cap⟩)

/-- Source lines 362-374: `pop_max` acting on the full heap state. -/
def pop_max_heap (h : Heap α) : Option α × Heap α :=
  ((pop_max h.data).1, ⟨(pop_max h.data).2, h.cap⟩)

/-! ### A bounds-checked rendering of `update_min` (claim C8) -/

theorem getC_eq (v : List α) (i : Nat) (h : i < v.length) : v[i]? = some (getE v i) := by
  rw [List.getElem?_eq_getElem h, getE_eq_getElem v i h]

/-- Source lines 107-112 with every index read made fallible: the short-circuit
in `v.len() <= c2 || cmp.compares_lt(&v[c1], &v[c2])` reads nothing when the
second child is out of range. -/
def min_child_checked (v : List α) (l : Nat) : Option Nat :=
  if v.length ≤ l * 2 + 4 then some (l * 2 + 2)
  else (v[l * 2 + 2]?).bind fun a => (v[l * 2 + 4]?).bind fun b =>
    some (if a < b then l * 2 + 2 else l * 2 + 4)

/-- Source lines 116-119 with every index read made fallible: the guard
`right < v.len()` is checked before `v[left]` and `v[right]` are read. -/
def fix_pair_min_checked (v : List α) (ch : Nat) : Option (List α) :=
  if ch + 1 < v.length then
    (v[ch]?).bind fun a => (v[ch + 1]?).bind fun b =>
      some (if b < a then swap v ch (ch + 1) else v)
  else some v

/-- Source lines 102-124 (`update_min`), the `loop`, with every index read
made fallible and the iteration bounded by explicit fuel. -/
def update_min_loop_checked (fuel : Nat) (v : List α) (l : Nat) : Option (List α) :=
  match fuel with
  | 0 => none
  | fuel + 1 =>
    if v.length ≤ l * 2 + 2 then some v
    else (min_child_checked v l).bind fun ch =>
      (v[ch]?).bind fun a => (v[l]?).bind fun b =>
      if a < b then
        (fix_pair_min_checked (swap v ch l) ch).bind fun v2 =>
          update_min_loop_checked fuel v2 ch
      else some v

/-- Source lines 102-124: `update_min` with checked indexing; the loop runs at
most `v.length / 2 + 1` times, so `v.length + 1` units of fuel suffice. -/
def update_min_checked (v : List α) : Option (List α) :=
  update_min_loop_checked (v.length + 1) v 0

theorem min_child_checked_eq (v : List α) (l : Nat) :
    min_child_checked v l = some (min_child v l) := by
  unfold min_child_checked min_child
  by_cases hc : v.length ≤ l * 2 + 4
  · rw [if_pos hc, if_pos (Or.inl hc)]
  · rw [if_neg hc, getC_eq v (l * 2 + 2) (by omega), getC_eq v (l * 2 + 4) (by omega),
        Option.some_bind, Option.some_bind]
    by_cases hlt : getE v (l * 2 + 2) < getE v (l * 2 + 4)
    · rw [if_pos hlt, if_pos (Or.inr hlt)]
    · rw [if_neg hlt, if_neg (fun hor => hor.elim hc hlt)]

theorem fix_pair_min_checked_eq (v : List α) (ch : Nat) :
    fix_pair_min_checked v ch = some (fix_pair_min v ch) := by
  unfold fix_pair_min_checked fix_pair_min
  by_cases h : ch + 1 < v.length
  · rw [if_pos h, if_pos h, getC_eq v ch (by omega), getC_eq v (ch + 1) h,
        Option.some_bind, Option.some_bind]
  · rw [if_neg h, if_neg h]

theorem update_min_loop_checked_eq : ∀ (fuel : Nat) (v : List α) (l : Nat),
    v.length - l < fuel →
    update_min_loop_checked fuel v l = some (update_min_loop v l) := by
  intro fuel
  induction fuel with
  | zero => intro v l h; omega
  | succ fuel ih =>
    intro v l h
    unfold update_min_loop_checked update_min_loop
    by_cases h1 : v.length ≤ l * 2 + 2
    · rw [if_pos h1, dif_pos h1]
    · rw [if_neg h1, dif_neg h1, min_child_checked_eq v l, Option.some_bind]
      have hb := min_child_bounds v l h1
      have hcm : l * 2 + 2 ≤ min_child v l := by
        unfold min_child
        split <;> omega
      rw [getC_eq v (min_child v l) hb.2, getC_eq v l (by omega),
          Option.some_bind, Option.some_bind]
      by_cases h2 : getE v (min_child v l) < getE v l
      · rw [if_pos h2, if_pos h2, fix_pair_min_checked_eq, Option.some_bind]
        apply ih
        rw [length_fix_pair_min, length_swap]
        omega
      · rw [if_neg h2, if_neg h2]

theorem update_min_checked_eq (v : List α) :
    update_min_checked v = some (update_min v) := by
  unfold update_min_checked update_min
  exact update_min_loop_checked_eq (v.length + 1) v 0 (by omega)

/-! ## The claims -/

/-- Claim C1: for every heap state satisfying the three structural invariants,
the state after `push`, after `pop_min`, and after `pop_max` again satisfies
all three invariants; and for every input vector the heap produced by
`from_vec_and_comparator` satisfies them. -/
theorem claim_C1 (v : List α) (x : α) (hv : is_valid v = true) :
    is_valid (push v x) = true ∧ is_valid (pop_min v).2 = true ∧
    is_valid (pop_max v).2 = true ∧
    ∀ l : List α, is_valid (from_vec_and_comparator l) = true := by
  have hv2 := (is_valid_iff v).mp hv
  exact ⟨(is_valid_iff _).mpr (push_valid v x hv2),
    (is_valid_iff _).mpr (pop_min_valid v hv2),
    (is_valid_iff _).mpr (pop_max_valid v hv2),
    fun l => (is_valid_iff _).mpr (from_vec_valid l)⟩

theorem claim_C1_witness :
    is_valid ([1, 3, 2] : List Int) = true ∧
      (is_valid (push ([1, 3, 2] : List Int) 0) = true ∧
        is_valid (pop_min ([1, 3, 2] : List Int)).2 = true ∧
        is_valid (pop_max ([1, 3, 2] : List Int)).2 = true ∧
        ∀ l : List Int, is_valid (from_vec_and_comparator l) = true) :=
  ⟨by decide, claim_C1 [1, 3, 2] 0 (by decide)⟩

/-- Claim C2: for every finite input sequence, building a heap from it and
then draining with `pop_min` yields a non-decreasing sequence that is a
permutation of the input; draining with `pop_max` yields a non-increasing
sequence that is a permutation of the input. -/
theorem claim_C2 (l : List α) :
    List.Sorted (· ≤ ·) (popMinAll (from_vec_and_comparator l)) ∧
    (popMinAll (from_vec_and_comparator l)).Perm l ∧
    List.Sorted (· ≥ ·) (popMaxAll (from_vec_and_comparator l)) ∧
    (popMaxAll (from_vec_and_comparator l)).Perm l := by
  obtain ⟨h1, h2⟩ :=
    popMinAll_spec (from_vec_and_comparator l).length _ rfl (from_vec_valid l)
  obtain ⟨h3, h4⟩ :=
    popMaxAll_spec (from_vec_and_comparator l).length _ rfl (from_vec_valid l)
  exact ⟨h1, h2.trans (from_vec_perm l), h3, h4.trans (from_vec_perm l)⟩

/-- Claim C3: for every valid non-empty heap, `min` returns the slot-0 item
and it is a minimum of the contents; `max` returns the slot-1 item (slot 0
for a singleton) and it is a maximum; `min_max` returns exactly that pair;
and in a singleton heap `min` and `max` agree. -/
theorem claim_C3 (v : List α) (hv : is_valid v = true) (hne : 1 ≤ v.length) :
    min v = some (getE v 0) ∧ (∀ i, i < v.length → getE v 0 ≤ getE v i) ∧
    max v = some (getE v (if v.length = 1 then 0 else 1)) ∧
    (∀ i, i < v.length → getE v i ≤ getE v (if v.length = 1 then 0 else 1)) ∧
    min_max v = some (getE v 0, getE v (if v.length = 1 then 0 else 1)) ∧
    (v.length = 1 → min v = max v) := by
  have hv2 := (is_valid_iff v).mp hv
  by_cases h1 : v.length = 1
  · refine ⟨?_, valid_min v hv2, ?_, ?_, ?_, fun _ => ?_⟩
    · unfold min
      rw [if_neg (by omega)]
    · unfold max
      rw [if_neg (by omega), if_pos h1, if_pos h1]
    · intro i hi
      rw [if_pos h1]
      rw [h1] at hi
      have hi0 : i = 0 := by omega
      rw [hi0]
    · unfold min_max
      rw [if_neg (by omega), if_pos h1, if_pos h1]
    · unfold min max
      rw [if_neg (by omega), if_neg (by omega), if_pos h1]
  · refine ⟨?_, valid_min v hv2, ?_, ?_, ?_, fun hc => absurd hc h1⟩
    · unfold min
      rw [if_neg (by omega)]
    · unfold max
      rw [if_neg (by omega), if_neg h1, if_neg h1]
    · intro i hi
      rw [if_neg h1]
      exact valid_max v hv2 (by omega) i hi
    · unfold min_max
      rw [if_neg (by omega), if_neg h1, if_neg h1]

theorem claim_C3_witness :
    is_valid ([1, 3, 2] : List Int) = true ∧ 1 ≤ ([1, 3, 2] : List Int).length ∧
      (min ([1, 3, 2] : List Int) = some (getE ([1, 3, 2] : List Int) 0) ∧
        (∀ i, i < ([1, 3, 2] : List Int).length →
          getE ([1, 3, 2] : List Int) 0 ≤ getE ([1, 3, 2] : List Int) i) ∧
        max ([1, 3, 2] : List Int) =
          some (getE ([1, 3, 2] : List Int)
            (if ([1, 3, 2] : List Int).length = 1 then 0 else 1)) ∧
        (∀ i, i < ([1, 3, 2] : List Int).length →
          getE ([1, 3, 2] : List Int) i ≤ getE ([1, 3, 2] : List Int)
            (if ([1, 3, 2] : List Int).length = 1 then 0 else 1)) ∧
        min_max ([1, 3, 2] : List Int) =
          some (getE ([1, 3, 2] : List Int) 0, getE ([1, 3, 2] : List Int)
            (if ([1, 3, 2] : List Int).length = 1 then 0 else 1)) ∧
        (([1, 3, 2] : List Int).length = 1 →
          min ([1, 3, 2] : List Int) = max ([1, 3, 2] : List Int))) :=
  ⟨by decide, by decide, claim_C3 [1, 3, 2] (by decide) (by decide)⟩

/-- Claim C4: for every valid heap, `into_sorted_vec` returns an ascending
sequence whose multiset of elements equals the heap contents. -/
theorem claim_C4 (v : List α) (hv : is_valid v = true) :
    List.Sorted (· ≤ ·) (into_sorted_vec v) ∧ (into_sorted_vec v).Perm v :=
  into_sorted_vec_spec v ((is_valid_iff v).mp hv)

theorem claim_C4_witness :
    is_valid ([1, 3, 2] : List Int) = true ∧
      (List.Sorted (· ≤ ·) (into_sorted_vec ([1, 3, 2] : List Int)) ∧
        (into_sorted_vec ([1, 3, 2] : List Int)).Perm [1, 3, 2]) :=
  ⟨by decide, claim_C4 [1, 3, 2] (by decide)⟩

/-- Claim C5 is refuted: on the valid two-node heap `[0, 10, 5]`, acquiring a
max handle, overwriting the referenced slot with `1` and releasing the handle
leaves `[0, 1, 5]`, whose unpaired child `5` exceeds the root high item `1`
while update_max returns without touching it, so the released heap violates
the structural invariants. -/
theorem claim_C5 :
    is_valid ([0, 10, 5] : List Int) = true ∧
    max_mut ([0, 10, 5] : List Int) = some PeekType.Max ∧
    peek_write ([0, 10, 5] : List Int) PeekType.Max 1 = [0, 1, 5] ∧
    mutpeek_drop ([0, 1, 5] : List Int) PeekType.Max = [0, 1, 5] ∧
    is_valid ([0, 1, 5] : List Int) = false := by
  refine ⟨by decide, rfl, rfl, ?_, by decide⟩
  unfold mutpeek_drop
  norm_num [getE, List.getD]
  unfold update_max update_max_loop
  norm_num

/-- Claim C6 is refuted: releasing a handle can hit a fatal failure.  On the
singleton heap `[5]`, `min_mut` hands out a handle whose release reads
`data[1]` out of bounds; and after the destructive `pop` on the two-item heap
`[1, 2]` the release on the remaining singleton again reads `data[1]` out of
bounds, even though the `Sifted` tag skips the repair itself. -/
theorem claim_C6 :
    min_mut ([5] : List Int) = some PeekType.Min ∧
    mutpeek_drop_checked ([5] : List Int) PeekType.Min = none ∧
    pop_max ([1, 2] : List Int) = (some 2, [1]) ∧
    mutpeek_drop_checked ([1] : List Int) PeekType.Sifted = none :=
  ⟨rfl, rfl, rfl, rfl⟩

/-- Claim C7: on the empty heap, `min`, `max`, `min_max`, `pop_min`,
`pop_max`, `min_mut` and `max_mut` all return the explicit `none` result. -/
theorem claim_C7 :
    min ([] : List α) = none ∧ max ([] : List α) = none ∧
    min_max ([] : List α) = none ∧ (pop_min ([] : List α)).1 = none ∧
    (pop_max ([] : List α)).1 = none ∧ min_mut ([] : List α) = none ∧
    max_mut ([] : List α) = none :=
  ⟨rfl, rfl, rfl, rfl, rfl, rfl, rfl⟩

/-- Claim C8: for every slice satisfying the invariants except at the root
low slot (root pair still ordered), the min-side repair accesses only
in-bounds indices -- the checked rendering returns `some` and agrees with the
unchecked one -- and produces a slice satisfying all three structural
invariants; the existence check for a high slot guards every local pair
fix. -/
theorem claim_C8 (v : List α) (hpre : MinPre v) :
    update_min_checked v = some (update_min v) ∧ is_valid (update_min v) = true :=
  ⟨update_min_checked_eq v, (is_valid_iff _).mpr (update_min_valid v hpre)⟩

theorem claim_C8_witness :
    MinPre ([9, 10, 3, 4, 1] : List Int) ∧
      (update_min_checked ([9, 10, 3, 4, 1] : List Int) =
          some (update_min ([9, 10, 3, 4, 1] : List Int)) ∧
        is_valid (update_min ([9, 10, 3, 4, 1] : List Int)) = true) := by
  have hpre : MinPre ([9, 10, 3, 4, 1] : List Int) := by
    refine ⟨fun _ => by decide, ?_, ?_, ?_⟩
    · intro j hj1 hj2
      simp only [List.length_cons, List.length_nil] at hj2
      have hj : j = 1 := by omega
      subst hj
      decide
    · intro j hj1 hj2
      simp only [List.length_cons, List.length_nil] at hj2
      have hj : j = 1 ∨ j = 2 := by omega
      rcases hj with rfl | rfl <;> decide
    · intro j hj3 hj2
      simp only [List.length_cons, List.length_nil] at hj2
      omega
  exact ⟨hpre, claim_C8 _ hpre⟩

/-- Claim C9: bulk build equals repeated insertion: `from_vec_and_comparator`
produces exactly the backing vector obtained by pushing the input's elements
one at a time, in order, into an empty heap. -/
theorem claim_C9 (l : List α) :
    from_vec_and_comparator l = List.foldl (fun d x => push d x) [] l :=
  from_vec_eq_foldl l

/-- Claim C10: `pop_min` and `pop_max` on an empty heap return `none` and
leave the heap -- backing sequence and capacity -- entirely unchanged. -/
theorem claim_C10 (h : Heap α) (he : h.data.length = 0) :
    (pop_min_heap h).1 = none ∧ (pop_min_heap h).2 = h ∧
    (pop_max_heap h).1 = none ∧ (pop_max_heap h).2 = h := by
  obtain ⟨d, c⟩ := h
  have hd : d = [] := List.length_eq_zero.mp he
  subst hd
  exact ⟨rfl, rfl, rfl, rfl⟩

theorem claim_C10_witness :
    (⟨[], 7⟩ : Heap Int).data.length = 0 ∧
      ((pop_min_heap (⟨[], 7⟩ : Heap Int)).1 = none ∧
        (pop_min_heap (⟨[], 7⟩ : Heap Int)).2 = (⟨[], 7⟩ : Heap Int) ∧
        (pop_max_heap (⟨[], 7⟩ : Heap Int)).1 = none ∧
        (pop_max_heap (⟨[], 7⟩ : Heap Int)).2 = (⟨[], 7⟩ : Heap Int)) :=
  ⟨rfl, claim_C10 ⟨[], 7⟩ rfl⟩

end IntervalHeap
